import Mathlib

/-!
# Verification development for `sochsenreither/upgrade`

Shallow embedding of

* `binaryagreement/commoncoin.go` : the request loop of `CommonCoin.Run` and the
  answer of the network coin;
* `blockagreement/blockagreement.go` : `BlockAgreement.Run`, `updateVotes`,
  `incrementRound`, `GetValue`, the ticker and the `multicast` closure;
* `blockagreement/utils.go` : the hashes of the messages;
* `utils/networkhandler.go` : `multicast`, the lazy channel creation of
  `receive` and the result of `coinCall`.

Conventions of the embedding.

* Go `int` is `Int`; `byte` is a `Nat` below 256.
* The threshold-RSA library (`tcrsa`) and `crypto/sha256` are external: they are
  taken as parameters (`Crypto`), every theorem holds for all of them.
* A Go map whose missing keys read as the zero value is a total function on the
  key; the nested maps `m[a][b][c]` of `CommonCoin.Run`, whose inner maps are
  created on demand, are functions on the tuple `(a, b, c)`.  The innermost map
  `nodeId -> *CoinRequest`, whose length and contents the code uses, is an
  association list with unique keys.
* `go cc.Answer(req, val)` is recorded as an emitted answer `(req, val)`.
* A `range` over a Go map visits every entry once in an unspecified order; the
  model visits them in insertion order.
-/

namespace Upgrade

/-! ## Common coin -/

/-- The fields of `utils.CoinRequest` that `CommonCoin.Run` reads.  `Sig` stands
for the share behind the pointer `*tcrsa.SigShare`; a request with a nil share
is outside the model. -/
structure CoinRequest where
  Sender : Int
  UROUND : Int
  Round : Int
  Instance : Int
  Sig : Nat
  deriving DecidableEq, Repr

/-- External cryptography used by the coin. -/
structure Crypto where
  /-- The function `sha256.Sum256`. -/
  sum256 : List Nat → List Nat
  /-- The function `tcrsa.PrepareDocumentHash(cc.KeyMeta.PublicKey.Size(), crypto.SHA256, ·)`. -/
  prepareDocumentHash : List Nat → List Nat
  /-- The test `sig.Verify(hash, cc.KeyMeta) == nil`. -/
  verify : Nat → List Nat → Bool
  /-- The call `sigShares.Join(hash, cc.KeyMeta)`; `none` is a non-nil error. -/
  join : List Nat → List Nat → Option (List Nat)

/-- The bytes `[]byte(strconv.Itoa(round))`. -/
def itoaBytes (round : Int) : List Nat :=
  (toString round).toList.map Char.toNat

/-- The document hash of a round: lines 155-156 of `commoncoin.go`. -/
def Crypto.roundHash (c : Crypto) (round : Int) : List Nat :=
  c.prepareDocumentHash (c.sum256 (itoaBytes round))

/-- A call `go cc.Answer(req, val)`. -/
structure Answer where
  req : CoinRequest
  val : Nat
  deriving DecidableEq, Repr

/-- Key `(UROUND, round, instance)` of the maps `received` and `alreadySent`. -/
abbrev CoinKey := Int × Int × Int

/-- The key of a request. -/
def CoinRequest.key (r : CoinRequest) : CoinKey := (r.UROUND, r.Round, r.Instance)

/-- Assignment `m[k] = v` on the innermost map `nodeId -> *CoinRequest`. -/
def mapSet (m : List (Int × CoinRequest)) (k : Int) (v : CoinRequest) :
    List (Int × CoinRequest) :=
  match m with
  | [] => [(k, v)]
  | (k', v') :: rest => if k' = k then (k, v) :: rest else (k', v') :: mapSet rest k v

/-- Assignment `m[k] = v` on a map read as a total function. -/
def setKey {κ ν : Type} [DecidableEq κ] (m : κ → ν) (k : κ) (v : ν) : κ → ν :=
  fun k' => if k' = k then v else m k'

/-- The three local maps of `CommonCoin.Run` (lines 122-124). -/
structure CoinState where
  /-- The map `received`: UROUND -> round -> instance -> nodeId -> request. -/
  received : CoinKey → List (Int × CoinRequest)
  /-- The map `alreadySent`: UROUND -> round -> instance -> bool. -/
  alreadySent : CoinKey → Bool
  /-- The map `coinVals`: UROUND -> round -> byte. -/
  coinVals : Int × Int → Nat

/-- The freshly made, empty maps. -/
def CoinState.init : CoinState :=
  { received := fun _ => [], alreadySent := fun _ => false, coinVals := fun _ => 0 }

namespace CommonCoin

/-- The threshold `cc.N/2+1` (Go division truncates toward zero). -/
def threshold (N : Int) : Int := Int.tdiv N 2 + 1

/-- Lines 132-152: the maps are created where missing and the request is stored,
`received[UROUND][round][instance][sender] = request`. -/
def store (st : CoinState) (request : CoinRequest) : CoinState :=
  { st with
    received :=
      setKey st.received request.key (mapSet (st.received request.key) request.Sender request) }

/-- The coin bit `certHash[len(certHash)-1] & 0x01` of a certificate (lines 186-187);
`certHash` is a `[32]byte`, its last index is 31. -/
def coinBit (c : Crypto) (certificate : List Nat) : Nat :=
  ((c.sum256 certificate).getD 31 0) &&& 1

/-- One iteration of the loop `for request := range cc.RequestChan` (lines 126-196):
the new maps and the answers started in this iteration. -/
def step (c : Crypto) (N : Int) (st : CoinState) (request : CoinRequest) :
    CoinState × List Answer :=
  let UROUND := request.UROUND
  let round := request.Round
  -- lines 132-152
  let st1 := store st request
  -- lines 155-156
  let hash := c.roundHash round
  -- line 162: a share that does not verify ends the iteration
  if c.verify request.Sig hash = false then (st1, [])
  -- line 168
  else if ((st1.received request.key).length : Int) ≥ threshold N then
    if st1.alreadySent request.key = true then
      -- line 171
      (st1, [⟨request, st1.coinVals (UROUND, round)⟩])
    else
      -- lines 175-178
      let sigShares := (st1.received request.key).map (fun p => p.2.Sig)
      match c.join sigShares hash with
      | none => (st1, [])
      | some certificate =>
        let lsb := coinBit c certificate
        -- lines 189-193
        ({ st1 with
            alreadySent := setKey st1.alreadySent request.key true
            coinVals := setKey st1.coinVals (UROUND, round) lsb },
         (st1.received request.key).map (fun p => ⟨p.2, lsb⟩))
  else (st1, [])

/-- The loop of `CommonCoin.Run` on the requests read from `cc.RequestChan`, in
order, started from state `st` with the answers `out` emitted so far. -/
def runFrom (c : Crypto) (N : Int) (st : CoinState) (out : List Answer) :
    List CoinRequest → CoinState × List Answer
  | [] => (st, out)
  | request :: rest =>
    let r := step c N st request
    runFrom c N r.1 (out ++ r.2) rest

/-- The loop of `CommonCoin.Run` from the empty maps: final maps and all answers
emitted, in order. -/
def Run (c : Crypto) (N : Int) (reqs : List CoinRequest) : CoinState × List Answer :=
  runFrom c N CoinState.init [] reqs

end CommonCoin

/-- A concrete instance of the external cryptography, used to evaluate the loop:
a share is valid iff it is below 50; valid shares combine to the one certificate
`[7]`, any other list of shares combines, without error, to the list itself; the
digest of a certificate ends in the sum of its bytes modulo 256. -/
def demoCrypto : Crypto :=
  { sum256 := fun l => List.replicate 31 0 ++ [l.sum % 256]
    prepareDocumentHash := fun l => l
    verify := fun sig _ => decide (sig < 50)
    join := fun shares _ => some (if shares.all (fun s => decide (s < 50)) then [7] else shares) }

/-- Request of `sender` for `(UROUND 0, round 0, instance)` with share `sig`. -/
def mkReq (sender inst : Int) (sig : Nat) : CoinRequest :=
  { Sender := sender, UROUND := 0, Round := 0, Instance := inst, Sig := sig }

/-- The sender ids of the requests for key `k` in `reqs`, in arrival order. -/
def sendersOf (k : CoinKey) (reqs : List CoinRequest) : List Int :=
  (reqs.filter (fun r => decide (r.key = k))).map (fun r => r.Sender)

/-- The sender ids of the requests for key `k` in `reqs` whose signature share
passes `Verify` against the hash of the request's round. -/
def verifiedSendersOf (c : Crypto) (k : CoinKey) (reqs : List CoinRequest) : List Int :=
  (reqs.filter (fun r => decide (r.key = k) && c.verify r.Sig (c.roundHash r.Round))).map
    (fun r => r.Sender)

/-- The answers among `out` given to requests for key `k`. -/
def answersFor (k : CoinKey) (out : List Answer) : List Answer :=
  out.filter (fun a => decide (a.req.key = k))

/-! ## Block agreement

`BlockAgreement.Run` is sequential code around two outside calls: the run of the
graded-consensus protocol (`gradedconsensus.go`, not part of this development)
and the receive on the ticker channel.  The graded-consensus results are a
parameter `results`, one result per graded-consensus round, so that each result
below holds for every sequence of results.  Channel operations are taken to
complete: the send on `out` (a channel buffered for `n*999` block shares) appends
to the buffer, the receive `<-ba.tickerChan` takes one tick.
-/

/-- Pointer `*utils.BlockShare`: `none` is `nil`, `some b` is the block share `b`. -/
abbrev BlockSharePtr := Option Nat

/-- Commit message `(sender, round, blockShare, sig)`. -/
structure CommitMessage where
  sender : Int
  round : Int
  blockShare : BlockSharePtr
  sig : Nat
  deriving DecidableEq, Repr

/-- The struct `Vote` built in `NewBlockAgreement` and `SetInput`. -/
structure Vote where
  Round : Int
  BlockShare : BlockSharePtr
  Commits : List CommitMessage
  deriving DecidableEq, Repr

/-- What `gradedConsensusProtocol.GetValue()` returns: the fields `Run` reads. -/
structure GradedConsensusResult where
  Grade : Int
  BlockShare : BlockSharePtr
  Commits : List CommitMessage
  deriving DecidableEq, Repr

/-- The mutable part of `BlockAgreement` together with the fields of the
underlying protocols that `updateVotes` and `incrementRound` write.  The
fields `gcRuns` and `ticks` are history: the vote held by graded consensus at
each call of `run()`, and the number of ticks `Run` itself has received. -/
structure BlockAgreement where
  round : Int
  kappa : Int
  blockShare : BlockSharePtr
  commits : List CommitMessage
  /-- Buffer of the channel `out`, oldest first. -/
  out : List BlockSharePtr
  /-- Field `gradedConsensusProtocol.round`. -/
  gcRound : Int
  /-- Field `gradedConsensusProtocol.vote`. -/
  gcVote : Vote
  /-- Field `gradedConsensusProtocol.proposeProtocol.round`. -/
  proposeRound : Int
  /-- Field `gradedConsensusProtocol.proposeProtocol.vote`. -/
  proposeVote : Vote
  gcRuns : List Vote
  ticks : Nat
  deriving DecidableEq, Repr

/-- The instance `NewBlockAgreement` returns (lines 66-89): round 0, the input
block share, no commits, an empty `out`, graded consensus created for round 0
with the vote `(0, blockShare, nil)`. -/
def NewBlockAgreement (kappa : Int) (blockShare : BlockSharePtr) : BlockAgreement :=
  { round := 0, kappa := kappa, blockShare := blockShare, commits := [], out := [],
    gcRound := 0, gcVote := ⟨0, blockShare, []⟩,
    proposeRound := 0, proposeVote := ⟨0, blockShare, []⟩,
    gcRuns := [], ticks := 0 }

namespace BlockAgreement

/-- Lines 123-133. -/
def updateVotes (ba : BlockAgreement) : BlockAgreement :=
  { ba with
    gcVote := { Round := ba.round, BlockShare := ba.blockShare, Commits := ba.commits }
    proposeVote := { Round := ba.round, BlockShare := ba.blockShare, Commits := ba.commits } }

/-- Lines 135-139. -/
def incrementRound (ba : BlockAgreement) : BlockAgreement :=
  { ba with
    round := ba.round + 1
    gcRound := ba.gcRound + 1
    proposeRound := ba.proposeRound + 1 }

/-- The body of the loop of `Run` (lines 99-117); `res` is the result of the
graded-consensus run of this iteration. -/
def iteration (results : Int → GradedConsensusResult) (ba : BlockAgreement) : BlockAgreement :=
  let ba1 := ba.updateVotes
  -- line 100: the graded consensus runs on the vote it holds
  let ba2 := { ba1 with gcRuns := ba1.gcRuns ++ [ba1.gcVote] }
  let res := results ba2.gcRound
  let ba3 :=
    if res.Grade > 0 then { ba2 with blockShare := res.BlockShare, commits := res.Commits }
    else ba2
  let ba4 := if res.Grade = 2 then { ba3 with out := ba3.out ++ [res.BlockShare] } else ba3
  let ba5 := ba4.incrementRound
  -- line 117
  { ba5 with ticks := ba5.ticks + 1 }

/-- The loop `for ba.round < ba.kappa` with at most `fuel` iterations. -/
def runLoop (results : Int → GradedConsensusResult) : Nat → BlockAgreement → BlockAgreement
  | 0, ba => ba
  | fuel + 1, ba => if ba.round < ba.kappa then runLoop results fuel (iteration results ba) else ba

/-- The method `Run` (lines 92-120).  The loop is given `kappa - round` iterations,
which is what it needs: `Run_exits` shows the loop condition is false at the end. -/
def Run (results : Int → GradedConsensusResult) (ba : BlockAgreement) : BlockAgreement :=
  runLoop results (ba.kappa - ba.round).toNat ba

/-- The method `GetValue` (lines 142-147): the value returned and the instance
afterwards; the receive `<-ba.out` takes the oldest element out of the buffer. -/
def GetValue (ba : BlockAgreement) : BlockSharePtr × BlockAgreement :=
  match ba.out with
  | [] => (none, ba)
  | b :: rest => (b, { ba with out := rest })

/-- The values returned by `calls` successive calls of `GetValue`. -/
def getValues : Nat → BlockAgreement → List BlockSharePtr
  | 0, _ => []
  | calls + 1, ba => (GetValue ba).1 :: getValues calls (GetValue ba).2

end BlockAgreement

/-- Results with grade 2 and the block share 7 in every round. -/
def alwaysGradeTwo (_ : Int) : GradedConsensusResult :=
  { Grade := 2, BlockShare := some 7, Commits := [] }

/-- Requests in which instance 1 of `(UROUND 0, round 0)` computes its coin between
the computation for instance 0 and a late request for instance 0; the share (98)
that sender 0 sends to instance 1 does not verify. -/
def interleavedRequests : List CoinRequest :=
  [mkReq 0 0 10, mkReq 1 0 11, mkReq 2 0 12,
   mkReq 0 1 98, mkReq 1 1 11, mkReq 2 1 13,
   mkReq 3 0 13]

/-- Requests for one key of which only the last carries a share that verifies. -/
def mostlyInvalidRequests : List CoinRequest :=
  [mkReq 0 0 99, mkReq 1 0 98, mkReq 2 0 12]

/-- Two requests for one key from distinct senders, both with valid shares. -/
def twoValidRequests : List CoinRequest :=
  [mkReq 0 0 10, mkReq 1 0 11]

/-- Three requests for one key from distinct senders, all with valid shares. -/
def threeValidRequests : List CoinRequest :=
  [mkReq 0 0 10, mkReq 1 0 11, mkReq 2 0 12]

/-! ## Ticks -/

/-- Modelled from the spec: each run of graded consensus takes `gcTicks` ticks
from the ticker channel (4 in section 4.3 of the specification: propose, vote,
commit, notify); the code of graded consensus is not part of this development.
The ticks an instance has taken from `tickerChan` are those of its
graded-consensus runs and those `Run` received itself at line 117. -/
def BlockAgreement.ticksConsumed (gcTicks : Nat) (ba : BlockAgreement) : Nat :=
  gcTicks * ba.gcRuns.length + ba.ticks

/-- The loop of the closure `ticker` of `NewBlockAgreement` (lines 54-64) on `edges`
edges of the timer channel `t.C`, with counter `c` and the values `sent` on
`tickerChan` so far.  The result is the values sent and whether the closure has
returned (`true`) or is waiting for the next edge (`false`).  Go `%` is `Int.tmod`. -/
def tickerLoop (kappa : Int) : Nat → Int → List Int → List Int × Bool
  | 0, _, sent => (sent, false)
  | edges + 1, c, sent =>
    -- lines 58-60: tickerChan <- c % 6; c++; if c == 7*kappa
    if c + 1 = 7 * kappa then (sent ++ [Int.tmod c 6], true)
    else tickerLoop kappa edges (c + 1) (sent ++ [Int.tmod c 6])

/-- The closure `ticker`: the counter starts at 1 (line 54). -/
def ticker (kappa : Int) (edges : Nat) : List Int × Bool :=
  tickerLoop kappa edges 1 []

/-! ## Message hashes (`blockagreement/utils.go`)

`sha256.Sum256` and the method `Hash` of `utils.BlockShare` are parameters.  The
pointer fields `vote` and `sig` are taken to be non-nil.  The Go map
`voteMessages` is an association list with unique keys; the order of the list
is the order in which a `range` over the map visits the entries. -/

/-- External functions used by the hashes. -/
structure HashEnv where
  /-- The function `sha256.Sum256`. -/
  sum256 : List Nat → List Nat
  /-- The method `Hash` of `*utils.BlockShare`. -/
  blockShareHash : BlockSharePtr → List Nat

/-- The struct `tcrsa.SigShare`; the hashes read the bytes `Xi`. -/
structure SigShare where
  Xi : List Nat
  C : List Nat
  Z : List Nat
  Id : Nat
  deriving DecidableEq, Repr

/-- The struct `commitMessage` (lines 130-135). -/
structure commitMessage where
  sender : Int
  round : Int
  blockShare : BlockSharePtr
  sig : SigShare
  deriving DecidableEq, Repr

/-- The struct `vote` (lines 29-33). -/
structure vote where
  round : Int
  blockShare : BlockSharePtr
  commits : List commitMessage
  deriving DecidableEq, Repr

/-- The struct `voteMessage` (lines 17-21). -/
structure voteMessage where
  sender : Int
  vote : vote
  sig : SigShare
  deriving DecidableEq, Repr

/-- The struct `proposeMessage` (lines 23-28). -/
structure proposeMessage where
  sender : Int
  vote : vote
  voteMessages : List (Int × voteMessage)
  sig : SigShare
  deriving DecidableEq, Repr

/-- Lines 148-157. -/
def commitMessage.HashWithoutSig (e : HashEnv) (c : commitMessage) : List Nat :=
  let s := e.sum256 (itoaBytes c.sender)
  let r := e.sum256 (itoaBytes c.round)
  let bs := e.blockShareHash c.blockShare
  e.sum256 (bs ++ s ++ r)

/-- Lines 138-145. -/
def commitMessage.Hash (e : HashEnv) (c : commitMessage) : List Nat :=
  let h := c.HashWithoutSig e
  let s := e.sum256 c.sig.Xi
  e.sum256 (h ++ s)

/-- Lines 36-49. -/
def vote.Hash (e : HashEnv) (v : vote) : List Nat :=
  let roundHash := e.sum256 (itoaBytes v.round)
  let blockShareHash := e.blockShareHash v.blockShare
  let commitsHash := (v.commits.map (fun c => c.Hash e)).flatten
  e.sum256 (roundHash ++ blockShareHash ++ commitsHash)

/-- Lines 62-70. -/
def voteMessage.HashWithoutSig (e : HashEnv) (vm : voteMessage) : List Nat :=
  let senderHash := e.sum256 (itoaBytes vm.sender)
  let voteHash := vm.vote.Hash e
  e.sum256 (senderHash ++ voteHash)

/-- Lines 52-59. -/
def voteMessage.Hash (e : HashEnv) (vm : voteMessage) : List Nat :=
  let h := vm.HashWithoutSig e
  let sigHash := e.sum256 vm.sig.Xi
  e.sum256 (h ++ sigHash)

/-- The map read `pm.voteMessages[k]`: `none` is the nil pointer of a missing key. -/
def voteMessagesGet (m : List (Int × voteMessage)) (k : Int) : Option voteMessage :=
  match m with
  | [] => none
  | (k', v) :: rest => if k' = k then some v else voteMessagesGet rest k

/-- The function `sort.Ints`: ascending order. -/
def sortInts (l : List Int) : List Int :=
  l.insertionSort (· ≤ ·)

/-- Lines 90-94: `keys` is made with length `len(pm.voteMessages)`, that many
zeros, every key of the map is appended to it, and the slice is sorted. -/
def proposeMessage.keys (pm : proposeMessage) : List Int :=
  sortInts (List.replicate pm.voteMessages.length 0 ++ pm.voteMessages.map Prod.fst)

/-- Lines 95-98: the hashes `pm.voteMessages[k].Hash()` for the keys `ks` in order,
concatenated; `none` when a key is missing from the map, where `Hash` is called
on a nil pointer and dereferences it. -/
def voteHashes (e : HashEnv) (m : List (Int × voteMessage)) : List Int → Option (List Nat)
  | [] => some []
  | k :: ks =>
    match voteMessagesGet m k with
    | none => none
    | some vm =>
      match voteHashes e m ks with
      | none => none
      | some vh => some (vm.Hash e ++ vh)

/-- Lines 84-105; `none` is a run-time panic. -/
def proposeMessage.HashWithoutSig (e : HashEnv) (pm : proposeMessage) : Option (List Nat) :=
  let senderHash := e.sum256 (itoaBytes pm.sender)
  let voteHash := pm.vote.Hash e
  match voteHashes e pm.voteMessages pm.keys with
  | none => none
  | some vh => some (e.sum256 (senderHash ++ voteHash ++ vh))

/-- Lines 73-81. -/
def proposeMessage.Hash (e : HashEnv) (pm : proposeMessage) : Option (List Nat) :=
  match pm.HashWithoutSig e with
  | none => none
  | some h => some (e.sum256 (h ++ e.sum256 pm.sig.Xi))

/-- The digest the comment at lines 88-89 describes: SHA-256 of the hash of the
decimal sender, the hash of the vote, and the hash of every entry of the map
taken once, in ascending order of its key. -/
def proposeMessage.hashSortedOnce (e : HashEnv) (pm : proposeMessage) : List Nat :=
  let senderHash := e.sum256 (itoaBytes pm.sender)
  let voteHash := pm.vote.Hash e
  let entries := (sortInts (pm.voteMessages.map Prod.fst)).filterMap (voteMessagesGet pm.voteMessages)
  e.sum256 (senderHash ++ voteHash ++ (entries.map (fun vm => vm.Hash e)).flatten)

/-- Stand-in for the external hashes that shows what is hashed: `Sum256` returns
its input, the hash of a block share is one byte naming it. -/
def plainHashEnv : HashEnv :=
  { sum256 := fun l => l
    blockShareHash := fun b => [b.getD 0] }

/-- A signature share with the bytes `xi`. -/
def mkSig (xi : Nat) : SigShare := { Xi := [xi], C := [], Z := [], Id := 0 }

/-- The vote message of `sender` on round 0 and block share 7. -/
def mkVoteMessage (sender : Int) (xi : Nat) : voteMessage :=
  { sender := sender, vote := { round := 0, blockShare := some 7, commits := [] }, sig := mkSig xi }

/-- A propose message of node 0 carrying the vote messages of nodes 0 and 1. -/
def twoVotesPropose : proposeMessage :=
  { sender := 0, vote := { round := 0, blockShare := some 7, commits := [] },
    voteMessages := [(0, mkVoteMessage 0 100), (1, mkVoteMessage 1 101)], sig := mkSig 102 }

/-! ## Network handler (`utils/networkhandler.go`)

The types `Origin`, `Message` and `HandlerMessage` are declared outside the
files of this development; they are given the fields and constants that
`networkhandler.go` and `commoncoin.go` use.  A call `go handler.send(m, i)` is
recorded as the pair `(m, i)`. -/

/-- The constants of type `utils.Origin` used by the handler. -/
inductive Origin where
  | RBC | ABA | BLA | ACS | ABC | COIN
  deriving DecidableEq, Repr

/-- The struct `utils.Message`: `Payload` is an interface value, `none` is nil. -/
structure Message where
  Sender : Int
  Payload : Option Nat
  deriving DecidableEq, Repr

/-- The struct `utils.HandlerMessage`. -/
structure HandlerMessage where
  UROUND : Int
  Round : Int
  Instance : Int
  Origin : Origin
  Payload : Message
  deriving DecidableEq, Repr

/-- The loop `for i, param := range params { p[i] = param }` on a zeroed array `p`
of length `size`: `none` when `params` is longer than the array, where the
index is out of range. -/
def fillParams (size : Nat) (params : List Int) : Option (List Int) :=
  if params.length ≤ size then some (params ++ List.replicate (size - params.length) 0)
  else none

/-- The closure `multicast` of `NewNetworkHandler` (lines 61-83) for `n` nodes:
the sends it starts. -/
def multicast (n : Int) (msg : Message) (origin : Origin) (params : List Int) :
    Option (List (HandlerMessage × Int)) :=
  match fillParams 4 params with
  | none => none
  | some p =>
    let m : HandlerMessage :=
      { UROUND := p.getD 0 0, Round := p.getD 1 0, Instance := p.getD 2 0,
        Origin := origin, Payload := msg }
    if p.getD 3 0 ≠ -1 then some [(m, p.getD 3 0)]
    else some ((List.range n.toNat).map (fun (i : Nat) => (m, (i : Int))))

/-- The closure `blaMulticast` (lines 186-188). -/
def blaMulticast (n : Int) (msg : Message) (UROUND round receiver : Int) :
    Option (List (HandlerMessage × Int)) :=
  multicast n msg Origin.BLA [UROUND, round, 0, receiver]

/-- The closure `multicast` of `NewBlockAgreement` (lines 29-35), with
`handlerFuncs.BLAmulticast` the closure `blaMulticast` of a handler for `n` nodes. -/
def NewBlockAgreement.multicast (n UROUND : Int) (msg : Message) (round : Int)
    (receiver : List Int) : Option (List (HandlerMessage × Int)) :=
  match receiver with
  | [r] => blaMulticast n msg UROUND round r
  | _ => blaMulticast n msg UROUND round (-1)

/-- One of the maps `abaChans` and `coinChans` (UROUND -> round -> slice of
channels) with the number of channels made so far; a channel is named by its
creation number, `none` is the nil slice of a missing entry.  The inner map
`chans[UROUND]` is made by `updateRound`, which is outside this development. -/
structure ChanTable where
  chans : Int × Int → Option (List Nat)
  made : Nat

/-- Lines 104-109 (case ABA) and 153-158 (case COIN), run under the write lock:
when the entry of `(UROUND, round)` is nil, a slice of `n` new channels is stored
there.  `n` is the number of nodes, which `make` requires to be non-negative. -/
def lazyCreate (n : Nat) (t : ChanTable) (k : Int × Int) : ChanTable :=
  match t.chans k with
  | some _ => t
  | none =>
    { chans := setKey t.chans k (some ((List.range n).map (fun i => t.made + i)))
      made := t.made + n }

/-- The channel a call `receive(ABA, UROUND, round, instance)` or
`receive(COIN, UROUND, round, instance)` reads from (lines 112 and 161), with the
table afterwards; `none` when the index is out of range. -/
def receiveChannel (n : Nat) (t : ChanTable) (UROUND round inst : Int) :
    ChanTable × Option Nat :=
  let t' := lazyCreate n t (UROUND, round)
  (t', if 0 ≤ inst then ((t'.chans (UROUND, round)).getD [])[inst.toNat]? else none)

/-- A table with no entry and no channel made. -/
def ChanTable.empty : ChanTable := { chans := fun _ => none, made := 0 }

/-- A message of node 3 without payload. -/
def someMessage : Message := { Sender := 3, Payload := none }

/-! ## The coin answer on the network

The answer of the network coin travels as a `HandlerMessage`; the gob encoding
and the TCP transport between `answer` and `coinCall` are outside this
development and are taken to deliver the message as it was built. -/

/-- The conversion `int(val)` of a byte. -/
def byteToInt (val : Nat) : Int := (val : Int)

/-- The conversion `byte(x)` of a Go `int`: the low eight bits. -/
def intToByte (x : Int) : Nat := (x % 256).toNat

/-- The handler message built by the closure `answer` of `NewNetworkCommonCoin`
(lines 83-93 of `commoncoin.go`). -/
def networkAnswer (req : CoinRequest) (val : Nat) : HandlerMessage :=
  { UROUND := req.UROUND, Round := req.Round, Instance := req.Instance,
    Origin := Origin.COIN,
    Payload := { Sender := byteToInt val, Payload := none } }

/-- The queue a handler message is for: origin, UROUND, round and instance. -/
def HandlerMessage.queue (m : HandlerMessage) : Upgrade.Origin × Int × Int × Int :=
  (m.Origin, m.UROUND, m.Round, m.Instance)

/-- The queue `coinCall` waits on for the request `msg` (line 227 of
`networkhandler.go`): `receive(COIN, msg.UROUND, msg.Round, msg.Instance)`. -/
def coinCallQueue (msg : CoinRequest) : Origin × Int × Int × Int :=
  (Origin.COIN, msg.UROUND, msg.Round, msg.Instance)

/-- What `coinCall` returns for the message `answer` it received (line 228):
`byte(answer.Sender)`. -/
def coinCallResult (answer : Message) : Nat :=
  intToByte answer.Sender

/-- A propose message of node 1 carrying the vote messages of nodes 1 and 2, and
none of node 0. -/
def noZeroPropose : proposeMessage :=
  { sender := 1, vote := { round := 0, blockShare := some 7, commits := [] },
    voteMessages := [(1, mkVoteMessage 1 101), (2, mkVoteMessage 2 102)], sig := mkSig 103 }

/-! ### The innermost map -/

theorem mapSet_mem_keys (m : List (Int × CoinRequest)) (k : Int) (v : CoinRequest) (x : Int) :
    x ∈ (mapSet m k v).map Prod.fst ↔ x = k ∨ x ∈ m.map Prod.fst := by
  induction m with
  | nil => simp [mapSet]
  | cons p rest ih =>
    obtain ⟨k', v'⟩ := p
    by_cases h : k' = k
    · subst h
      simp [mapSet]
    · simp only [mapSet, h, if_false, List.map_cons, List.mem_cons, ih]
      tauto

theorem mapSet_nodup (m : List (Int × CoinRequest)) (k : Int) (v : CoinRequest)
    (h : (m.map Prod.fst).Nodup) : ((mapSet m k v).map Prod.fst).Nodup := by
  induction m with
  | nil => simp [mapSet]
  | cons p rest ih =>
    obtain ⟨k', v'⟩ := p
    simp only [List.map_cons, List.nodup_cons] at h
    by_cases hk : k' = k
    · subst hk
      simpa [mapSet] using h
    · simp only [mapSet, hk, if_false, List.map_cons, List.nodup_cons]
      refine ⟨?_, ih h.2⟩
      rw [mapSet_mem_keys]
      rintro (h1 | h1)
      · exact hk h1
      · exact h.1 h1

theorem mapSet_length_of_mem (m : List (Int × CoinRequest)) (k : Int) (v : CoinRequest)
    (h : k ∈ m.map Prod.fst) : (mapSet m k v).length = m.length := by
  induction m with
  | nil => simp at h
  | cons p rest ih =>
    obtain ⟨k', v'⟩ := p
    by_cases hk : k' = k
    · simp [mapSet, hk]
    · have h1 : k ∈ rest.map Prod.fst := by
        simp only [List.map_cons, List.mem_cons] at h
        rcases h with h | h
        · exact absurd h.symm hk
        · exact h
      simp [mapSet, hk, ih h1]

theorem mapSet_length_of_not_mem (m : List (Int × CoinRequest)) (k : Int) (v : CoinRequest)
    (h : k ∉ m.map Prod.fst) : (mapSet m k v).length = m.length + 1 := by
  induction m with
  | nil => simp [mapSet]
  | cons p rest ih =>
    obtain ⟨k', v'⟩ := p
    simp only [List.map_cons, List.mem_cons, not_or] at h
    have hk : ¬ k' = k := fun e => h.1 e.symm
    simp [mapSet, hk, ih h.2]

theorem mapSet_length_le (m : List (Int × CoinRequest)) (k : Int) (v : CoinRequest) :
    m.length ≤ (mapSet m k v).length := by
  by_cases h : k ∈ m.map Prod.fst
  · rw [mapSet_length_of_mem m k v h]
  · rw [mapSet_length_of_not_mem m k v h]
    exact Nat.le_succ _

theorem mapSet_mem_self (m : List (Int × CoinRequest)) (k : Int) (v : CoinRequest) :
    (k, v) ∈ mapSet m k v := by
  induction m with
  | nil => simp [mapSet]
  | cons p rest ih =>
    obtain ⟨k', v'⟩ := p
    by_cases hk : k' = k
    · simp [mapSet, hk]
    · simp [mapSet, hk, ih]

theorem mapSet_mem_cases (m : List (Int × CoinRequest)) (k : Int) (v : CoinRequest)
    (p : Int × CoinRequest) (hp : p ∈ mapSet m k v) : p = (k, v) ∨ p ∈ m := by
  induction m with
  | nil => simpa [mapSet] using hp
  | cons q rest ih =>
    obtain ⟨k', v'⟩ := q
    by_cases hk : k' = k
    · simp only [mapSet, hk, if_true, List.mem_cons] at hp
      rcases hp with hp | hp
      · exact Or.inl hp
      · exact Or.inr (List.mem_cons_of_mem _ hp)
    · simp only [mapSet, hk, if_false, List.mem_cons] at hp
      rcases hp with hp | hp
      · exact Or.inr (by simp [hp])
      · rcases ih hp with h | h
        · exact Or.inl h
        · exact Or.inr (List.mem_cons_of_mem _ h)

/-! ### The loop -/

namespace CommonCoin

theorem runFrom_append (c : Crypto) (N : Int) (l l' : List CoinRequest) (st : CoinState)
    (out : List Answer) :
    runFrom c N st out (l ++ l') =
      runFrom c N (runFrom c N st out l).1 (runFrom c N st out l).2 l' := by
  induction l generalizing st out with
  | nil => rfl
  | cons r rest ih =>
    show runFrom c N _ _ (rest ++ l') = _
    rw [ih]
    rfl

theorem Run_snoc (c : Crypto) (N : Int) (l : List CoinRequest) (r : CoinRequest) :
    Run c N (l ++ [r]) =
      ((step c N (Run c N l).1 r).1, (Run c N l).2 ++ (step c N (Run c N l).1 r).2) := by
  unfold Run
  rw [runFrom_append]
  rfl

/-- Line 152 runs in every iteration, before the share is verified: whatever
branch is taken, the map `received` afterwards holds the request. -/
theorem step_received (c : Crypto) (N : Int) (st : CoinState) (r : CoinRequest) :
    (step c N st r).1.received =
      setKey st.received r.key (mapSet (st.received r.key) r.Sender r) := by
  unfold step
  simp only []
  split_ifs <;> try rfl
  split <;> rfl

theorem store_received_self (st : CoinState) (r : CoinRequest) :
    (store st r).received r.key = mapSet (st.received r.key) r.Sender r := by
  simp [store, setKey]

theorem step_verify_false (c : Crypto) (N : Int) (st : CoinState) (r : CoinRequest)
    (h : c.verify r.Sig (c.roundHash r.Round) = false) :
    step c N st r = (store st r, []) := by
  unfold step
  simp [h]

theorem step_below (c : Crypto) (N : Int) (st : CoinState) (r : CoinRequest)
    (h : c.verify r.Sig (c.roundHash r.Round) = true)
    (hlt : (((store st r).received r.key).length : Int) < threshold N) :
    step c N st r = (store st r, []) := by
  unfold step
  have : ¬ (((store st r).received r.key).length : Int) ≥ threshold N := not_le.mpr hlt
  simp [h, this]

theorem step_late (c : Crypto) (N : Int) (st : CoinState) (r : CoinRequest)
    (h : c.verify r.Sig (c.roundHash r.Round) = true)
    (hcnt : threshold N ≤ (((store st r).received r.key).length : Int))
    (hs : st.alreadySent r.key = true) :
    step c N st r = (store st r, [⟨r, st.coinVals (r.UROUND, r.Round)⟩]) := by
  unfold step
  have hs' : (store st r).alreadySent r.key = true := hs
  simp only [h, hs', ge_iff_le, hcnt, if_true]
  simp [store]

theorem step_combine (c : Crypto) (N : Int) (st : CoinState) (r : CoinRequest)
    (σ : List Nat)
    (h : c.verify r.Sig (c.roundHash r.Round) = true)
    (hcnt : threshold N ≤ (((store st r).received r.key).length : Int))
    (hs : st.alreadySent r.key = false)
    (hj : c.join (((store st r).received r.key).map (fun p => p.2.Sig)) (c.roundHash r.Round)
      = some σ) :
    step c N st r =
      ({ store st r with
          alreadySent := setKey st.alreadySent r.key true
          coinVals := setKey st.coinVals (r.UROUND, r.Round) (coinBit c σ) },
       ((store st r).received r.key).map (fun p => ⟨p.2, coinBit c σ⟩)) := by
  unfold step
  have hs' : (store st r).alreadySent r.key = false := hs
  simp only [h, hs', ge_iff_le, hcnt, if_true, hj]
  simp [store]

theorem step_join_none (c : Crypto) (N : Int) (st : CoinState) (r : CoinRequest)
    (h : c.verify r.Sig (c.roundHash r.Round) = true)
    (hcnt : threshold N ≤ (((store st r).received r.key).length : Int))
    (hs : st.alreadySent r.key = false)
    (hj : c.join (((store st r).received r.key).map (fun p => p.2.Sig)) (c.roundHash r.Round)
      = none) :
    step c N st r = (store st r, []) := by
  unfold step
  have hs' : (store st r).alreadySent r.key = false := hs
  simp only [h, hs', ge_iff_le, hcnt, if_true, hj]
  simp

theorem sendersOf_snoc (k : CoinKey) (l : List CoinRequest) (r : CoinRequest) :
    sendersOf k (l ++ [r]) = sendersOf k l ++ (if r.key = k then [r.Sender] else []) := by
  unfold sendersOf
  by_cases h : r.key = k <;> simp [List.filter_append, List.filter_cons, h]

theorem Run_nil (c : Crypto) (N : Int) : Run c N [] = (CoinState.init, []) := rfl

/-- In every state the loop reaches, the senders stored for a key are pairwise
distinct, they are the senders that sent a request for the key, and every
stored request sits under its own sender id and has that key. -/
theorem Run_received_spec (c : Crypto) (N : Int) (reqs : List CoinRequest) (k : CoinKey) :
    (((Run c N reqs).1.received k).map Prod.fst).Nodup ∧
    (∀ x, x ∈ ((Run c N reqs).1.received k).map Prod.fst ↔ x ∈ sendersOf k reqs) ∧
    (∀ p ∈ (Run c N reqs).1.received k, p.2.Sender = p.1 ∧ p.2.key = k) := by
  induction reqs using List.reverseRecOn with
  | nil => simp [Run_nil, CoinState.init, sendersOf]
  | append_singleton l r ih =>
    obtain ⟨ih1, ih2, ih3⟩ := ih
    rw [Run_snoc, step_received, sendersOf_snoc]
    by_cases h : r.key = k
    · subst h
      simp only [setKey, if_true]
      refine ⟨mapSet_nodup _ _ _ ih1, ?_, ?_⟩
      · intro x
        rw [mapSet_mem_keys, ih2]
        simp only [List.mem_append, List.mem_singleton]
        tauto
      · intro p hp
        rcases mapSet_mem_cases _ _ _ _ hp with hp | hp
        · subst hp
          exact ⟨rfl, rfl⟩
        · exact ih3 p hp
    · have h' : ¬ k = r.key := fun e => h e.symm
      simp only [setKey, h, h', if_false, List.append_nil]
      exact ⟨ih1, ih2, ih3⟩

theorem Run_received_length (c : Crypto) (N : Int) (reqs : List CoinRequest) (k : CoinKey) :
    ((Run c N reqs).1.received k).length = (sendersOf k reqs).dedup.length := by
  obtain ⟨h1, h2, _⟩ := Run_received_spec c N reqs k
  have hperm : (((Run c N reqs).1.received k).map Prod.fst).Perm (sendersOf k reqs).dedup := by
    rw [List.perm_ext_iff_of_nodup h1 (List.nodup_dedup _)]
    intro x
    rw [h2, List.mem_dedup]
  have := hperm.length_eq
  simpa using this

theorem store_received_eq_Run_snoc (c : Crypto) (N : Int) (reqs : List CoinRequest)
    (r : CoinRequest) :
    (store (Run c N reqs).1 r).received = (Run c N (reqs ++ [r])).1.received := by
  rw [Run_snoc, step_received]
  rfl

theorem coinBit_lt_two (c : Crypto) (σ : List Nat) : coinBit c σ < 2 := by
  unfold coinBit
  rw [Nat.and_one_is_mod]
  exact Nat.mod_lt _ (by decide)

theorem key_eq_iff (r r' : CoinRequest) :
    r'.key = r.key ↔ r'.UROUND = r.UROUND ∧ r'.Round = r.Round ∧ r'.Instance = r.Instance := by
  simp [CoinRequest.key, Prod.ext_iff]

theorem verifiedSendersOf_snoc (c : Crypto) (k : CoinKey) (l : List CoinRequest)
    (r : CoinRequest) :
    verifiedSendersOf c k (l ++ [r]) = verifiedSendersOf c k l ++
      (if r.key = k ∧ c.verify r.Sig (c.roundHash r.Round) = true then [r.Sender] else []) := by
  unfold verifiedSendersOf
  by_cases h : r.key = k <;> by_cases hv : c.verify r.Sig (c.roundHash r.Round) = true <;>
    simp [List.filter_append, List.filter_cons, h, hv]

theorem verifiedSendersOf_subset (c : Crypto) (k : CoinKey) (l : List CoinRequest) :
    verifiedSendersOf c k l ⊆ sendersOf k l := by
  intro x hx
  unfold verifiedSendersOf at hx
  unfold sendersOf
  simp only [List.mem_map, List.mem_filter, Bool.and_eq_true, decide_eq_true_eq] at hx ⊢
  obtain ⟨r, ⟨hr, hk, _⟩, rfl⟩ := hx
  exact ⟨r, ⟨hr, hk⟩, rfl⟩

theorem dedup_length_le_of_subset {l l' : List Int} (h : l ⊆ l') :
    l.dedup.length ≤ l'.dedup.length := by
  have hsub : l.dedup ⊆ l'.dedup := by
    intro x hx
    rw [List.mem_dedup] at hx ⊢
    exact h hx
  exact (List.subperm_of_subset (List.nodup_dedup l) hsub).length_le

theorem step_alreadySent_of_ne (c : Crypto) (N : Int) (st : CoinState) (r : CoinRequest)
    (k : CoinKey) (h : ¬ k = r.key) :
    (step c N st r).1.alreadySent k = st.alreadySent k := by
  unfold step
  simp only []
  split_ifs <;> try rfl
  split
  · rfl
  · simp [store, setKey, h]

/-- Invariant behind C4, for a key `k`, when `Join` succeeds on every list of at
least `N/2+1` shares: once the key is marked as sent, at least `N/2+1` requests
are stored for it and every sender of a verified request for it has been
answered; while it is not marked, fewer than `N/2+1` distinct senders have sent
it a verified request. -/
theorem Run_threshold_invariant (c : Crypto) (N : Int) (k : CoinKey)
    (hpos : 0 < threshold N)
    (hjoin : ∀ shares h, threshold N ≤ (shares.length : Int) → (c.join shares h).isSome = true)
    (reqs : List CoinRequest) :
    ((Run c N reqs).1.alreadySent k = true →
      threshold N ≤ (((Run c N reqs).1.received k).length : Int) ∧
      ∀ s ∈ verifiedSendersOf c k reqs,
        ∃ a ∈ (Run c N reqs).2, a.req.key = k ∧ a.req.Sender = s) ∧
    ((Run c N reqs).1.alreadySent k = false →
      ((verifiedSendersOf c k reqs).dedup.length : Int) < threshold N) := by
  induction reqs using List.reverseRecOn with
  | nil =>
    refine ⟨fun h => ?_, fun _ => ?_⟩
    · simp [Run_nil, CoinState.init] at h
    · simpa [verifiedSendersOf] using hpos
  | append_singleton l r ih =>
    obtain ⟨ih1, ih2⟩ := ih
    have hvs := verifiedSendersOf_snoc c k l r
    rw [Run_snoc]
    by_cases hk : r.key = k
    · subst hk
      have hspec := Run_received_spec c N (l ++ [r]) r.key
      rw [← store_received_eq_Run_snoc] at hspec
      obtain ⟨_, hmem, hsend⟩ := hspec
      have hnewlen : ((store (Run c N l).1 r).received r.key).length
          = (sendersOf r.key (l ++ [r])).dedup.length := by
        rw [store_received_eq_Run_snoc]
        exact Run_received_length c N (l ++ [r]) r.key
      have hmono : (((Run c N l).1.received r.key).length : Int)
          ≤ (((store (Run c N l).1 r).received r.key).length : Int) := by
        rw [store_received_self]
        exact_mod_cast mapSet_length_le _ _ _
      by_cases hv : c.verify r.Sig (c.roundHash r.Round) = true
      · simp only [hv, and_self, if_true] at hvs
        by_cases hcnt : threshold N ≤ (((store (Run c N l).1 r).received r.key).length : Int)
        · cases hs : (Run c N l).1.alreadySent r.key
          · have hsome := hjoin (((store (Run c N l).1 r).received r.key).map (fun p => p.2.Sig))
              (c.roundHash r.Round) (by simpa using hcnt)
            obtain ⟨σ, hσ⟩ := Option.isSome_iff_exists.1 hsome
            rw [step_combine c N _ r σ hv hcnt hs hσ]
            refine ⟨fun _ => ⟨hcnt, ?_⟩, fun h => ?_⟩
            · intro s hs'
              have hs2 : s ∈ sendersOf r.key (l ++ [r]) := verifiedSendersOf_subset c _ _ hs'
              obtain ⟨p, hp, hp1⟩ := List.mem_map.1 ((hmem s).2 hs2)
              refine ⟨⟨p.2, coinBit c σ⟩, ?_, (hsend p hp).2, ?_⟩
              · exact List.mem_append_right _ (List.mem_map.2 ⟨p, hp, rfl⟩)
              · rw [← hp1]
                exact (hsend p hp).1
            · simp [setKey] at h
          · rw [step_late c N _ r hv hcnt hs]
            refine ⟨fun _ => ⟨hcnt, ?_⟩, fun h => ?_⟩
            · intro s hs'
              rw [hvs, List.mem_append, List.mem_singleton] at hs'
              rcases hs' with hs' | hs'
              · obtain ⟨a, ha, h1, h2⟩ := (ih1 hs).2 s hs'
                exact ⟨a, List.mem_append_left _ ha, h1, h2⟩
              · exact ⟨⟨r, _⟩, List.mem_append_right _ (List.mem_singleton.2 rfl), rfl, hs'.symm⟩
            · have h' : (Run c N l).1.alreadySent r.key = false := h
              rw [hs] at h'
              exact absurd h' (by simp)
        · rw [step_below c N _ r hv (not_le.1 hcnt)]
          refine ⟨fun h => ?_, fun _ => ?_⟩
          · exact absurd (le_trans (ih1 h).1 hmono) hcnt
          · have h2 := dedup_length_le_of_subset (verifiedSendersOf_subset c r.key (l ++ [r]))
            rw [← hnewlen] at h2
            have h3 : ((verifiedSendersOf c r.key (l ++ [r])).dedup.length : Int)
                ≤ (((store (Run c N l).1 r).received r.key).length : Int) := by
              exact_mod_cast h2
            exact lt_of_le_of_lt h3 (not_le.1 hcnt)
      · have hv' : c.verify r.Sig (c.roundHash r.Round) = false := by simpa using hv
        simp [hv'] at hvs
        rw [step_verify_false c N _ r hv', hvs]
        refine ⟨fun h => ?_, fun h => ih2 h⟩
        obtain ⟨h1, h2⟩ := ih1 h
        refine ⟨le_trans h1 hmono, ?_⟩
        intro s hs'
        obtain ⟨a, ha, h3⟩ := h2 s hs'
        exact ⟨a, by simpa using ha, h3⟩
    · have hk' : ¬ k = r.key := fun e => hk e.symm
      simp only [hk, false_and, if_false, List.append_nil] at hvs
      rw [hvs, step_alreadySent_of_ne c N _ r k hk', step_received]
      simp only [setKey, hk', if_false]
      refine ⟨fun h => ?_, ih2⟩
      obtain ⟨h1, h2⟩ := ih1 h
      refine ⟨h1, fun s hs' => ?_⟩
      obtain ⟨a, ha, h3⟩ := h2 s hs'
      exact ⟨a, List.mem_append_left _ ha, h3⟩

theorem step_coinVals_of_ne (c : Crypto) (N : Int) (st : CoinState) (r : CoinRequest)
    (x : Int × Int) (h : ¬ x = (r.UROUND, r.Round)) :
    (step c N st r).1.coinVals x = st.coinVals x := by
  unfold step
  simp only []
  split_ifs <;> try rfl
  split
  · rfl
  · simp [store, setKey, h]

/-- Every answer started while the request `r` is processed goes to a request
for the key of `r`. -/
theorem step_answers_key (c : Crypto) (N : Int) (l : List CoinRequest) (r : CoinRequest) :
    ∀ a ∈ (step c N (Run c N l).1 r).2, a.req.key = r.key := by
  obtain ⟨_, _, hsend⟩ := Run_received_spec c N (l ++ [r]) r.key
  rw [← store_received_eq_Run_snoc] at hsend
  intro a ha
  unfold step at ha
  simp only [] at ha
  split_ifs at ha
  · simp at ha
  · simp only [List.mem_singleton] at ha
    rw [ha]
  · split at ha
    · simp at ha
    · simp only [List.mem_map] at ha
      obtain ⟨p, hp, rfl⟩ := ha
      exact (hsend p hp).2
  · simp at ha

/-- What does hold of the answers for one key: when every request of the same
`(UROUND, round)` is for that one key, all answers for the key carry the same
bit, the one cached in `coinVals`. -/
theorem Run_answers_agree_of_single_instance (c : Crypto) (N : Int) (k : CoinKey)
    (reqs : List CoinRequest)
    (hsingle : ∀ r ∈ reqs, r.UROUND = k.1 → r.Round = k.2.1 → r.key = k) :
    ((Run c N reqs).1.alreadySent k = false → answersFor k (Run c N reqs).2 = []) ∧
    (∀ a ∈ answersFor k (Run c N reqs).2, a.val = (Run c N reqs).1.coinVals (k.1, k.2.1)) := by
  induction reqs using List.reverseRecOn with
  | nil => simp [Run_nil, answersFor]
  | append_singleton l r ih =>
    obtain ⟨ih1, ih2⟩ := ih (fun r' hr' => hsingle r' (List.mem_append_left _ hr'))
    have hkeys := step_answers_key c N l r
    rw [Run_snoc]
    by_cases hk : r.key = k
    · subst hk
      have hfilter : ∀ out : List Answer, (∀ a ∈ out, a.req.key = r.key) →
          answersFor r.key out = out := by
        intro out hout
        unfold answersFor
        rw [List.filter_eq_self]
        intro a ha
        simpa using hout a ha
      by_cases hv : c.verify r.Sig (c.roundHash r.Round) = true
      · by_cases hcnt : threshold N ≤ (((store (Run c N l).1 r).received r.key).length : Int)
        · cases hs : (Run c N l).1.alreadySent r.key
          · cases hj : c.join (((store (Run c N l).1 r).received r.key).map (fun p => p.2.Sig))
                (c.roundHash r.Round) with
            | none =>
              rw [step_join_none c N _ r hv hcnt hs hj]
              exact ⟨fun _ => by simpa using ih1 hs, by simpa using ih2⟩
            | some σ =>
              have hkeys' := hkeys
              rw [step_combine c N _ r σ hv hcnt hs hj] at hkeys' ⊢
              refine ⟨fun h => by simp [setKey] at h, ?_⟩
              intro a ha
              simp only [answersFor, List.filter_append, List.mem_append] at ha
              rcases ha with ha | ha
              · have hnil := ih1 hs
                unfold answersFor at hnil
                rw [hnil] at ha
                simp at ha
              · have ha' := (List.mem_filter.1 ha).1
                simp only [List.mem_map] at ha'
                obtain ⟨p, _, rfl⟩ := ha'
                simp [setKey, CoinRequest.key]
          · rw [step_late c N _ r hv hcnt hs]
            refine ⟨fun h => ?_, ?_⟩
            · have h' : (Run c N l).1.alreadySent r.key = false := h
              rw [hs] at h'
              exact absurd h' (by simp)
            · intro a ha
              simp only [answersFor, List.filter_append, List.mem_append] at ha
              rcases ha with ha | ha
              · exact ih2 a ha
              · have ha' := (List.mem_filter.1 ha).1
                simp only [List.mem_singleton] at ha'
                rw [ha']
                rfl
        · rw [step_below c N _ r hv (not_le.1 hcnt)]
          exact ⟨fun h => by simpa using ih1 h, by simpa using ih2⟩
      · have hv' : c.verify r.Sig (c.roundHash r.Round) = false := by simpa using hv
        rw [step_verify_false c N _ r hv']
        exact ⟨fun h => by simpa using ih1 h, by simpa using ih2⟩
    · have hk' : ¬ k = r.key := fun e => hk e.symm
      have hne : ¬ (k.1, k.2.1) = (r.UROUND, r.Round) := by
        intro e
        have e1 : r.UROUND = k.1 := (congrArg Prod.fst e).symm
        have e2 : r.Round = k.2.1 := (congrArg Prod.snd e).symm
        exact hk (hsingle r (List.mem_append_right _ (List.mem_singleton.2 rfl)) e1 e2)
      have hnone : answersFor k (step c N (Run c N l).1 r).2 = [] := by
        unfold answersFor
        rw [List.filter_eq_nil_iff]
        intro a ha
        have := hkeys a ha
        simp only [decide_eq_true_eq]
        intro e
        exact hk (this.symm.trans e)
      have hout : answersFor k ((Run c N l).2 ++ (step c N (Run c N l).1 r).2)
          = answersFor k (Run c N l).2 := by
        have : answersFor k ((Run c N l).2 ++ (step c N (Run c N l).1 r).2)
            = answersFor k (Run c N l).2 ++ answersFor k (step c N (Run c N l).1 r).2 := by
          simp [answersFor, List.filter_append]
        rw [this, hnone, List.append_nil]
      rw [step_alreadySent_of_ne c N _ r k hk', step_coinVals_of_ne c N _ r _ hne]
      simp only [hout]
      exact ⟨ih1, ih2⟩

/-! ### Claims on the common coin -/

/-- C1 (evaluation at a failing input).  With `N = 4`, three senders obtain the
coin of `(0, 0, instance 0)`, then instance 1 of the same `(UROUND, round)`
computes a coin from the shares it has stored, one of them unverified, which
overwrites `coinVals[0][0]`; the late requester 3 of instance 0 is answered from
that cache.  The answers for the key `(0, 0, 0)` carry the bits 1, 1, 1, 0. -/
theorem Run_interleaved_answers :
    (answersFor (0, 0, 0) (Run demoCrypto 4 interleavedRequests).2).map (fun a => a.val)
      = [1, 1, 1, 0] := by
  decide

/-- C2 (evaluation at a failing input).  A request whose share fails `Verify` gets
no answer and leaves `alreadySent` and `coinVals` as they were, but it is stored in
`received`: the map is empty for the key before the iteration and holds the
request afterwards. -/
theorem step_unverified_request_is_stored :
    demoCrypto.verify (mkReq 0 0 99).Sig (demoCrypto.roundHash (mkReq 0 0 99).Round) = false ∧
    (step demoCrypto 4 CoinState.init (mkReq 0 0 99)).2 = [] ∧
    CoinState.init.received (0, 0, 0) = [] ∧
    (step demoCrypto 4 CoinState.init (mkReq 0 0 99)).1.received (0, 0, 0)
      = [(0, mkReq 0 0 99)] := by
  decide

/-- C3 (evaluation at a failing input).  With `N = 4 > 3 * 1`, after two requests
whose shares fail verification and one whose share verifies, all for the same
key, the coin answers all three requesters although a single sender, fewer than
`t + 1 = 2`, has submitted a share that verifies. -/
theorem Run_answers_with_one_verified_share :
    (4 : Int) > 3 * 1 ∧
    (verifiedSendersOf demoCrypto (0, 0, 0) mostlyInvalidRequests).dedup.length = 1 ∧
    (answersFor (0, 0, 0) (Run demoCrypto 4 mostlyInvalidRequests).2).map
        (fun a => (a.req.Sender, a.val)) = [(0, 1), (1, 1), (2, 1)] := by
  decide

/-- C5.  After any sequence of requests the number of requests held for a key
equals the number of distinct sender ids that have sent a request for that key;
the count compared against the threshold while a request `r` is processed is
the number of distinct senders for its key including `r`; and a request from a
sender already stored for the key replaces the stored request and leaves the
count unchanged. -/
theorem Run_count_eq_distinct_senders (c : Crypto) (N : Int) (reqs : List CoinRequest) :
    (∀ k, ((Run c N reqs).1.received k).length = (sendersOf k reqs).dedup.length) ∧
    (∀ r : CoinRequest, (((store (Run c N reqs).1 r).received r.key).length
        = (sendersOf r.key (reqs ++ [r])).dedup.length)) ∧
    (∀ r : CoinRequest, r.Sender ∈ sendersOf r.key reqs →
      ((Run c N (reqs ++ [r])).1.received r.key).length
          = ((Run c N reqs).1.received r.key).length ∧
      (r.Sender, r) ∈ (Run c N (reqs ++ [r])).1.received r.key) := by
  refine ⟨fun k => Run_received_length c N reqs k, ?_, ?_⟩
  · intro r
    have h := Run_received_length c N (reqs ++ [r]) r.key
    rw [Run_snoc, step_received] at h
    rw [store_received_self, ← h]
    simp [setKey]
  · intro r hr
    have hmem : r.Sender ∈ ((Run c N reqs).1.received r.key).map Prod.fst :=
      ((Run_received_spec c N reqs r.key).2.1 _).2 hr
    rw [Run_snoc, step_received]
    simp only [setKey, if_true]
    exact ⟨mapSet_length_of_mem _ _ _ hmem, mapSet_mem_self _ _ _⟩

/-- Witness for C5: sender 0 repeats its request for the key `(0, 0, 0)`. -/
theorem Run_count_eq_distinct_senders_witness :
    (mkReq 0 0 11).Sender ∈ sendersOf (mkReq 0 0 11).key twoValidRequests ∧
    ((Run demoCrypto 4 (twoValidRequests ++ [mkReq 0 0 11])).1.received (mkReq 0 0 11).key).length
      = ((Run demoCrypto 4 twoValidRequests).1.received (mkReq 0 0 11).key).length ∧
    ((mkReq 0 0 11).Sender, mkReq 0 0 11)
      ∈ (Run demoCrypto 4 (twoValidRequests ++ [mkReq 0 0 11])).1.received (mkReq 0 0 11).key :=
  ⟨by decide,
   (Run_count_eq_distinct_senders demoCrypto 4 twoValidRequests).2.2 (mkReq 0 0 11) (by decide)⟩

/-- C6.  When an iteration of `Run` combines, for the first time for the key of
the request `r` (the key is not yet marked as sent), the shares stored for that
key into a certificate `σ`: the bit is `SHA-256(σ)[31] & 1`, a value below 2; the
iteration answers every request stored for the key with that bit, one answer
per distinct stored sender, the stored senders being all senders that sent a
request for the key; afterwards the key is marked as sent, `coinVals` holds the
bit, and a later verified request for the key is answered with the same bit. -/
theorem step_first_combination (c : Crypto) (N : Int) (reqs : List CoinRequest)
    (r : CoinRequest) (σ : List Nat)
    (hver : c.verify r.Sig (c.roundHash r.Round) = true)
    (hcnt : threshold N ≤ (((store (Run c N reqs).1 r).received r.key).length : Int))
    (hns : (Run c N reqs).1.alreadySent r.key = false)
    (hjoin : c.join (((store (Run c N reqs).1 r).received r.key).map (fun p => p.2.Sig))
      (c.roundHash r.Round) = some σ) :
    coinBit c σ = ((c.sum256 σ).getD 31 0) &&& 1 ∧ coinBit c σ < 2 ∧
    (step c N (Run c N reqs).1 r).2
      = ((store (Run c N reqs).1 r).received r.key).map (fun p => ⟨p.2, coinBit c σ⟩) ∧
    ((step c N (Run c N reqs).1 r).2.map (fun a => a.req.Sender)).Nodup ∧
    (∀ s, s ∈ (step c N (Run c N reqs).1 r).2.map (fun a => a.req.Sender)
      ↔ s ∈ sendersOf r.key (reqs ++ [r])) ∧
    (∀ a ∈ (step c N (Run c N reqs).1 r).2, a.req.key = r.key ∧ a.val = coinBit c σ) ∧
    (step c N (Run c N reqs).1 r).1.alreadySent r.key = true ∧
    (step c N (Run c N reqs).1 r).1.coinVals (r.UROUND, r.Round) = coinBit c σ ∧
    (∀ r' : CoinRequest, r'.key = r.key → c.verify r'.Sig (c.roundHash r'.Round) = true →
      (step c N (step c N (Run c N reqs).1 r).1 r').2 = [⟨r', coinBit c σ⟩]) := by
  have hstep := step_combine c N (Run c N reqs).1 r σ hver hcnt hns hjoin
  obtain ⟨hnd, hmem, hsend⟩ := Run_received_spec c N (reqs ++ [r]) r.key
  rw [← store_received_eq_Run_snoc] at hnd hmem hsend
  have hsenders : ((store (Run c N reqs).1 r).received r.key).map (fun p => p.2.Sender)
      = ((store (Run c N reqs).1 r).received r.key).map Prod.fst :=
    List.map_congr_left (fun p hp => (hsend p hp).1)
  refine ⟨rfl, coinBit_lt_two c σ, ?_, ?_, ?_, ?_, ?_, ?_, ?_⟩
  · rw [hstep]
  · rw [hstep]
    simp only [List.map_map, Function.comp_def]
    rw [hsenders]
    exact hnd
  · intro s
    rw [hstep]
    simp only [List.map_map, Function.comp_def]
    rw [hsenders]
    exact hmem s
  · intro a ha
    rw [hstep] at ha
    simp only [List.mem_map] at ha
    obtain ⟨p, hp, rfl⟩ := ha
    exact ⟨(hsend p hp).2, rfl⟩
  · rw [hstep]
    simp [setKey]
  · rw [hstep]
    simp [setKey]
  · intro r' hk hv
    obtain ⟨hU, hR, _⟩ := (key_eq_iff r r').1 hk
    have hrec : (step c N (Run c N reqs).1 r).1.received = (store (Run c N reqs).1 r).received := by
      rw [hstep]
    have hlen : threshold N
        ≤ (((store (step c N (Run c N reqs).1 r).1 r').received r'.key).length : Int) := by
      rw [store_received_self, hrec, hk]
      have := mapSet_length_le ((store (Run c N reqs).1 r).received r.key) r'.Sender r'
      have h2 : (((store (Run c N reqs).1 r).received r.key).length : Int)
          ≤ ((mapSet ((store (Run c N reqs).1 r).received r.key) r'.Sender r').length : Int) := by
        exact_mod_cast this
      exact le_trans hcnt h2
    have hsent : (step c N (Run c N reqs).1 r).1.alreadySent r'.key = true := by
      rw [hstep, hk]
      simp [setKey]
    rw [step_late c N _ r' hv hlen hsent, hstep, hU, hR]
    simp [setKey]

/-- Witness for C6: with `N = 4`, the third valid request for a key triggers the
first combination. -/
theorem step_first_combination_witness :
    (step demoCrypto 4 (Run demoCrypto 4 twoValidRequests).1 (mkReq 2 0 12)).2
      = ((store (Run demoCrypto 4 twoValidRequests).1 (mkReq 2 0 12)).received
          (mkReq 2 0 12).key).map (fun p => ⟨p.2, coinBit demoCrypto [7]⟩) :=
  (step_first_combination demoCrypto 4 twoValidRequests (mkReq 2 0 12) [7]
    (by decide) (by decide) (by decide) (by decide)).2.2.1

/-- C4 (counterexample).  With `N = 4 > 3 * 1`, after `t + 1 = 2` distinct senders
have each submitted a verifying share for the key `(0, 0, 0)`, shares that `Join`
combines without error, the coin has not been computed for the key and nobody
has been answered: the code waits for `N/2 + 1 = 3` stored requests. -/
theorem Run_silent_at_t_plus_one :
    (4 : Int) > 3 * 1 ∧
    (verifiedSendersOf demoCrypto (0, 0, 0) twoValidRequests).dedup.length = 1 + 1 ∧
    (demoCrypto.join (twoValidRequests.map (fun r => r.Sig)) (demoCrypto.roundHash 0)).isSome
      = true ∧
    (Run demoCrypto 4 twoValidRequests).1.alreadySent (0, 0, 0) = false ∧
    (Run demoCrypto 4 twoValidRequests).2 = [] := by
  decide

/-- C4 (amended).  For every `N ≥ 0`, whenever `Join` succeeds on at least `N/2 + 1`
shares: as soon as `N/2 + 1` distinct senders have each submitted a verifying
share for the key `k`, `Run` has computed the coin for `k` (the key is marked as
sent) and has answered each of those senders for that key. -/
theorem Run_answers_at_threshold (c : Crypto) (N : Int) (reqs : List CoinRequest)
    (k : CoinKey) (hN : 0 ≤ N)
    (hjoin : ∀ shares h, threshold N ≤ (shares.length : Int) → (c.join shares h).isSome = true)
    (hcount : threshold N ≤ ((verifiedSendersOf c k reqs).dedup.length : Int)) :
    (Run c N reqs).1.alreadySent k = true ∧
    ∀ s ∈ verifiedSendersOf c k reqs,
      ∃ a ∈ (Run c N reqs).2, a.req.key = k ∧ a.req.Sender = s := by
  have hpos : 0 < threshold N := by
    have := Int.tdiv_nonneg hN (by decide : (0 : Int) ≤ 2)
    unfold threshold
    omega
  obtain ⟨h1, h2⟩ := Run_threshold_invariant c N k hpos hjoin reqs
  cases hs : (Run c N reqs).1.alreadySent k
  · exact absurd hcount (not_le.2 (h2 hs))
  · exact ⟨rfl, (h1 hs).2⟩

/-- Witness for C4 (amended): `N = 4` and three valid requests for one key. -/
theorem Run_answers_at_threshold_witness :
    (Run demoCrypto 4 threeValidRequests).1.alreadySent (0, 0, 0) = true ∧
    ∀ s ∈ verifiedSendersOf demoCrypto (0, 0, 0) threeValidRequests,
      ∃ a ∈ (Run demoCrypto 4 threeValidRequests).2, a.req.key = (0, 0, 0) ∧ a.req.Sender = s :=
  Run_answers_at_threshold demoCrypto 4 threeValidRequests (0, 0, 0) (by decide)
    (fun _ _ _ => rfl) (by decide)

end CommonCoin

/-! ### The loop of block agreement -/

namespace BlockAgreement

theorem iteration_round (results : Int → GradedConsensusResult) (ba : BlockAgreement) :
    (iteration results ba).round = ba.round + 1 := by
  unfold iteration
  simp only [incrementRound, updateVotes]
  split_ifs <;> rfl

theorem iteration_kappa (results : Int → GradedConsensusResult) (ba : BlockAgreement) :
    (iteration results ba).kappa = ba.kappa := by
  unfold iteration
  simp only [incrementRound, updateVotes]
  split_ifs <;> rfl

theorem iteration_gcRound (results : Int → GradedConsensusResult) (ba : BlockAgreement) :
    (iteration results ba).gcRound = ba.gcRound + 1 := by
  unfold iteration
  simp only [incrementRound, updateVotes]
  split_ifs <;> rfl

theorem iteration_gcRuns (results : Int → GradedConsensusResult) (ba : BlockAgreement) :
    (iteration results ba).gcRuns = ba.gcRuns ++ [⟨ba.round, ba.blockShare, ba.commits⟩] := by
  unfold iteration
  simp only [incrementRound, updateVotes]
  split_ifs <;> rfl

theorem iteration_out (results : Int → GradedConsensusResult) (ba : BlockAgreement) :
    (iteration results ba).out =
      ba.out ++ (if (results ba.gcRound).Grade = 2 then [(results ba.gcRound).BlockShare]
        else []) := by
  unfold iteration
  simp only [incrementRound, updateVotes]
  split_ifs <;> simp

theorem iteration_blockShare (results : Int → GradedConsensusResult) (ba : BlockAgreement) :
    (iteration results ba).blockShare =
      if 1 ≤ (results ba.gcRound).Grade then (results ba.gcRound).BlockShare
      else ba.blockShare := by
  unfold iteration
  simp only [incrementRound, updateVotes]
  split_ifs <;> first | rfl | omega

theorem iteration_commits (results : Int → GradedConsensusResult) (ba : BlockAgreement) :
    (iteration results ba).commits =
      if 1 ≤ (results ba.gcRound).Grade then (results ba.gcRound).Commits
      else ba.commits := by
  unfold iteration
  simp only [incrementRound, updateVotes]
  split_ifs <;> first | rfl | omega

theorem runLoop_succ (results : Int → GradedConsensusResult) (n : Nat) (ba : BlockAgreement)
    (h : ba.round < ba.kappa) :
    runLoop results (n + 1) ba = runLoop results n (iteration results ba) := by
  simp [runLoop, h]

/-- The loop given exactly the iterations it needs: the final round, the rounds
of the graded-consensus runs and the block shares put on `out`. -/
theorem runLoop_spec (results : Int → GradedConsensusResult) :
    ∀ (n : Nat) (ba : BlockAgreement), ba.round + n = ba.kappa →
      (runLoop results n ba).round = ba.kappa ∧
      (runLoop results n ba).kappa = ba.kappa ∧
      (runLoop results n ba).gcRuns.map Vote.Round
        = ba.gcRuns.map Vote.Round ++ (List.range n).map (fun (i : Nat) => ba.round + (i : Int)) ∧
      (runLoop results n ba).out
        = ba.out ++ ((List.range n).filter
            (fun (i : Nat) => decide ((results (ba.gcRound + (i : Int))).Grade = 2))).map
            (fun (i : Nat) => (results (ba.gcRound + (i : Int))).BlockShare) := by
  intro n
  induction n with
  | zero =>
    intro ba h
    simp only [runLoop, List.range_zero, List.map_nil, List.filter_nil, List.append_nil]
    exact ⟨by simpa using h, trivial, trivial, trivial⟩
  | succ n ih =>
    intro ba h
    have hlt : ba.round < ba.kappa := by
      have : (0 : Int) ≤ (n : Int) := Int.ofNat_nonneg n
      push_cast at h
      omega
    have hnext : (iteration results ba).round + n = (iteration results ba).kappa := by
      rw [iteration_round, iteration_kappa]
      push_cast at h
      omega
    obtain ⟨h1, h2, h3, h4⟩ := ih (iteration results ba) hnext
    rw [runLoop_succ results n ba hlt]
    refine ⟨by rw [h1, iteration_kappa], by rw [h2, iteration_kappa], ?_, ?_⟩
    · rw [h3, iteration_gcRuns, iteration_round, List.range_succ_eq_map]
      simp only [List.map_append, List.map_cons, List.map_nil, List.map_map, List.append_assoc,
        List.singleton_append, Function.comp_def, Nat.cast_zero, add_zero, Nat.cast_succ]
      congr 2
      apply List.map_congr_left
      intro i _
      omega
    · rw [h4, iteration_out, iteration_gcRound, List.range_succ_eq_map]
      have hshift : ∀ i : Nat, ba.gcRound + 1 + (i : Int) = ba.gcRound + ((i + 1 : Nat) : Int) := by
        intro i
        push_cast
        omega
      simp only [hshift, List.filter_cons, List.filter_map, List.map_map, Function.comp_def,
        Nat.cast_zero, add_zero, List.append_assoc]
      by_cases hg : (results ba.gcRound).Grade = 2 <;> simp [hg]

theorem Run_new (results : Int → GradedConsensusResult) (kappa : Int)
    (blockShare : BlockSharePtr) :
    Run results (NewBlockAgreement kappa blockShare)
      = runLoop results kappa.toNat (NewBlockAgreement kappa blockShare) := by
  simp [Run, NewBlockAgreement]

theorem getValues_eq (calls : Nat) (ba : BlockAgreement) :
    getValues calls ba = ba.out.take calls ++ List.replicate (calls - ba.out.length) none := by
  induction calls generalizing ba with
  | zero => simp [getValues]
  | succ n ih =>
    cases h : ba.out with
    | nil =>
      have hg : GetValue ba = (none, ba) := by simp [GetValue, h]
      simp [getValues, hg, ih, h, List.replicate_succ]
    | cons b rest =>
      have hg : GetValue ba = (b, { ba with out := rest }) := by simp [GetValue, h]
      simp [getValues, hg, ih]

/-! ### Claims on block agreement -/

/-- C7 (counterexample).  With `κ = 2` and grade 2 in both rounds, one execution
of `Run` places two block shares on the output channel. -/
theorem Run_delivers_twice :
    (Run alwaysGradeTwo (NewBlockAgreement 2 (some 7))).out = [some 7, some 7] ∧
    ¬ (Run alwaysGradeTwo (NewBlockAgreement 2 (some 7))).out.length ≤ 1 := by
  decide

/-- C7 (amended).  For every `κ` and every sequence of graded-consensus results,
one execution of `Run` places on the output channel exactly one block share for
each round `0 ≤ r < κ` whose result has grade 2, the block share of that result,
in round order: as many block shares as rounds return grade 2, at most `κ`. -/
theorem Run_out_eq_grade_two_rounds (results : Int → GradedConsensusResult) (kappa : Int)
    (blockShare : BlockSharePtr) :
    (Run results (NewBlockAgreement kappa blockShare)).out
      = ((List.range kappa.toNat).filter
          (fun (i : Nat) => decide ((results (i : Int)).Grade = 2))).map
          (fun (i : Nat) => (results (i : Int)).BlockShare) ∧
    (Run results (NewBlockAgreement kappa blockShare)).out.length
      = ((List.range kappa.toNat).filter
          (fun (i : Nat) => decide ((results (i : Int)).Grade = 2))).length ∧
    (Run results (NewBlockAgreement kappa blockShare)).out.length ≤ kappa.toNat := by
  have hout : (Run results (NewBlockAgreement kappa blockShare)).out
      = ((List.range kappa.toNat).filter
          (fun (i : Nat) => decide ((results (i : Int)).Grade = 2))).map
          (fun (i : Nat) => (results (i : Int)).BlockShare) := by
    rw [Run_new]
    by_cases hk : 0 ≤ kappa
    · have h := (runLoop_spec results kappa.toNat (NewBlockAgreement kappa blockShare)
        (by simp [NewBlockAgreement, Int.toNat_of_nonneg hk])).2.2.2
      simpa [NewBlockAgreement] using h
    · have h0 : kappa.toNat = 0 := Int.toNat_eq_zero.2 (by omega)
      simp [h0, runLoop, NewBlockAgreement]
  refine ⟨hout, by rw [hout, List.length_map], ?_⟩
  rw [hout, List.length_map]
  calc ((List.range kappa.toNat).filter _).length
      ≤ (List.range kappa.toNat).length := List.length_filter_le _ _
    _ = kappa.toNat := List.length_range _

/-- C8 (counterexample).  After a run of one round that delivered the block share
7, the first call of `GetValue` returns that block share and the second returns
nil. -/
theorem GetValue_twice_differs :
    getValues 2 (Run alwaysGradeTwo (NewBlockAgreement 1 (some 7))) = [some 7, none] ∧
    (GetValue (Run alwaysGradeTwo (NewBlockAgreement 1 (some 7)))).1
      ≠ (GetValue (GetValue (Run alwaysGradeTwo (NewBlockAgreement 1 (some 7)))).2).1 := by
  decide

/-- C8 (amended).  On a terminated instance, successive calls of `GetValue` return
the block shares that `Run` left on the output channel, one per call, oldest
first, and nil from then on; when the channel is empty a call returns nil and
changes nothing, so any two calls then return nil. -/
theorem GetValue_after_Run (results : Int → GradedConsensusResult) (ba : BlockAgreement)
    (calls : Nat) :
    getValues calls (Run results ba)
      = (Run results ba).out.take calls
        ++ List.replicate (calls - (Run results ba).out.length) none ∧
    ((Run results ba).out = [] →
      GetValue (Run results ba) = (none, Run results ba) ∧
      getValues calls (Run results ba) = List.replicate calls none) := by
  refine ⟨getValues_eq _ _, fun h => ⟨by simp [GetValue, h], ?_⟩⟩
  rw [getValues_eq, h]
  simp

/-- Witness for C8 (amended): an instance with `κ = 0` terminates with an empty
output channel. -/
theorem GetValue_after_Run_witness :
    GetValue (Run alwaysGradeTwo (NewBlockAgreement 0 (some 7)))
        = (none, Run alwaysGradeTwo (NewBlockAgreement 0 (some 7))) ∧
    getValues 2 (Run alwaysGradeTwo (NewBlockAgreement 0 (some 7))) = List.replicate 2 none :=
  (GetValue_after_Run alwaysGradeTwo (NewBlockAgreement 0 (some 7)) 2).2 (by decide)

/-- C9.  For every `κ ≥ 0` and every sequence of graded-consensus results, `Run`
started on a new instance returns with `round = κ`, the loop condition false,
after exactly `κ` graded-consensus runs, which were handed the rounds
`0, 1, …, κ − 1` in that order. -/
theorem Run_iterates_kappa_times (results : Int → GradedConsensusResult) (kappa : Int)
    (blockShare : BlockSharePtr) (hk : 0 ≤ kappa) :
    (Run results (NewBlockAgreement kappa blockShare)).round = kappa ∧
    ¬ ((Run results (NewBlockAgreement kappa blockShare)).round
        < (Run results (NewBlockAgreement kappa blockShare)).kappa) ∧
    (Run results (NewBlockAgreement kappa blockShare)).gcRuns.length = kappa.toNat ∧
    (Run results (NewBlockAgreement kappa blockShare)).gcRuns.map Vote.Round
      = (List.range kappa.toNat).map (fun (i : Nat) => (i : Int)) := by
  rw [Run_new]
  obtain ⟨h1, h2, h3, _⟩ := runLoop_spec results kappa.toNat (NewBlockAgreement kappa blockShare)
    (by simp [NewBlockAgreement, Int.toNat_of_nonneg hk])
  have h3' : (runLoop results kappa.toNat (NewBlockAgreement kappa blockShare)).gcRuns.map
      Vote.Round = (List.range kappa.toNat).map (fun (i : Nat) => (i : Int)) := by
    simpa [NewBlockAgreement] using h3
  refine ⟨by simpa [NewBlockAgreement] using h1, ?_, ?_, h3'⟩
  · rw [h1, h2]
    exact lt_irrefl _
  · have := congrArg List.length h3'
    simpa using this

/-- Witness for C9: three rounds. -/
theorem Run_iterates_kappa_times_witness :
    (Run alwaysGradeTwo (NewBlockAgreement 3 (some 7))).round = 3 ∧
    (Run alwaysGradeTwo (NewBlockAgreement 3 (some 7))).gcRuns.map Vote.Round = [0, 1, 2] := by
  have h := Run_iterates_kappa_times alwaysGradeTwo 3 (some 7) (by decide)
  exact ⟨h.1, by simpa using h.2.2.2⟩

/-- C10.  In an iteration of `Run` whose graded-consensus result is `res`: if
`res.Grade ≥ 1` the current block share and commits become those of `res`,
otherwise (grade 0) both stay as they were; `updateVotes` then gives graded
consensus and the propose protocol the vote `(round, blockShare, commits)` of
the instance, so the vote handed to graded consensus in the next iteration is
the next round with the current block share and commits. -/
theorem iteration_updates_vote (results : Int → GradedConsensusResult) (ba : BlockAgreement) :
    (iteration results ba).blockShare
      = (if 1 ≤ (results ba.gcRound).Grade then (results ba.gcRound).BlockShare
          else ba.blockShare) ∧
    (iteration results ba).commits
      = (if 1 ≤ (results ba.gcRound).Grade then (results ba.gcRound).Commits
          else ba.commits) ∧
    (updateVotes (iteration results ba)).gcVote
      = ⟨ba.round + 1, (iteration results ba).blockShare, (iteration results ba).commits⟩ ∧
    (updateVotes (iteration results ba)).proposeVote
      = ⟨ba.round + 1, (iteration results ba).blockShare, (iteration results ba).commits⟩ ∧
    (iteration results (iteration results ba)).gcRuns
      = (iteration results ba).gcRuns
        ++ [⟨ba.round + 1, (iteration results ba).blockShare,
              (iteration results ba).commits⟩] := by
  refine ⟨iteration_blockShare results ba, iteration_commits results ba, ?_, ?_, ?_⟩
  · simp [updateVotes, iteration_round]
  · simp [updateVotes, iteration_round]
  · rw [iteration_gcRuns results (iteration results ba), iteration_round]

theorem iteration_ticks (results : Int → GradedConsensusResult) (ba : BlockAgreement) :
    (iteration results ba).ticks = ba.ticks + 1 := by
  unfold iteration
  simp only [incrementRound, updateVotes]
  split_ifs <;> rfl

theorem runLoop_ticks (results : Int → GradedConsensusResult) :
    ∀ (n : Nat) (ba : BlockAgreement), ba.round + n = ba.kappa →
      (runLoop results n ba).ticks = ba.ticks + n ∧
      (runLoop results n ba).gcRuns.length = ba.gcRuns.length + n := by
  intro n
  induction n with
  | zero =>
    intro ba _
    simp [runLoop]
  | succ n ih =>
    intro ba h
    have hlt : ba.round < ba.kappa := by
      have : (0 : Int) ≤ (n : Int) := Int.ofNat_nonneg n
      push_cast at h
      omega
    have hnext : (iteration results ba).round + n = (iteration results ba).kappa := by
      rw [iteration_round, iteration_kappa]
      push_cast at h
      omega
    obtain ⟨h1, h2⟩ := ih (iteration results ba) hnext
    rw [runLoop_succ results n ba hlt, h1, h2, iteration_ticks, iteration_gcRuns]
    simp only [List.length_append, List.length_singleton]
    omega

/-- C11.  In an iteration of `Run` whose graded-consensus result is `res`: if
`res.Grade = 2` exactly one block share is appended to the output channel, the
block share of `res`, which is also the new current block share of the
instance; if `res.Grade ≠ 2` the output channel is left as it was. -/
theorem iteration_delivers_iff_grade_two (results : Int → GradedConsensusResult)
    (ba : BlockAgreement) :
    ((results ba.gcRound).Grade = 2 →
      (iteration results ba).out = ba.out ++ [(results ba.gcRound).BlockShare] ∧
      (iteration results ba).blockShare = (results ba.gcRound).BlockShare) ∧
    ((results ba.gcRound).Grade ≠ 2 → (iteration results ba).out = ba.out) := by
  refine ⟨fun h => ⟨?_, ?_⟩, fun h => ?_⟩
  · rw [iteration_out, if_pos h]
  · rw [iteration_blockShare, if_pos (by omega)]
  · rw [iteration_out, if_neg h, List.append_nil]

/-- Witness for C11: a first iteration with grade 2. -/
theorem iteration_delivers_iff_grade_two_witness :
    (iteration alwaysGradeTwo (NewBlockAgreement 1 none)).out = [] ++ [some 7] ∧
    (iteration alwaysGradeTwo (NewBlockAgreement 1 none)).blockShare = some 7 :=
  (iteration_delivers_iff_grade_two alwaysGradeTwo (NewBlockAgreement 1 none)).1 (by decide)

/-- C12 (counterexample).  With graded-consensus runs of 4 ticks, one execution of
`Run` with `κ = 1` consumes 5 ticks, not `5 * 1 + 1 = 6`. -/
theorem Run_one_round_takes_five_ticks :
    ticksConsumed 4 (Run alwaysGradeTwo (NewBlockAgreement 1 (some 7))) = 5 ∧
    ticksConsumed 4 (Run alwaysGradeTwo (NewBlockAgreement 1 (some 7))) ≠ 5 * 1 + 1 := by
  decide

/-- C12 (amended).  With graded-consensus runs of 4 ticks each, one execution of
`Run` with `κ` rounds consumes exactly `5 κ` ticks: 4 in the graded-consensus run
and 1 in the receive of line 117, in each of the `κ` iterations, and none after
the loop. -/
theorem Run_ticks_eq_five_kappa (results : Int → GradedConsensusResult) (kappa : Int)
    (blockShare : BlockSharePtr) :
    ticksConsumed 4 (Run results (NewBlockAgreement kappa blockShare)) = 5 * kappa.toNat ∧
    (Run results (NewBlockAgreement kappa blockShare)).ticks = kappa.toNat ∧
    (Run results (NewBlockAgreement kappa blockShare)).gcRuns.length = kappa.toNat := by
  have h : (Run results (NewBlockAgreement kappa blockShare)).ticks = kappa.toNat ∧
      (Run results (NewBlockAgreement kappa blockShare)).gcRuns.length = kappa.toNat := by
    rw [Run_new]
    by_cases hk : 0 ≤ kappa
    · have h := runLoop_ticks results kappa.toNat (NewBlockAgreement kappa blockShare)
        (by simp [NewBlockAgreement, Int.toNat_of_nonneg hk])
      simpa [NewBlockAgreement] using h
    · have h0 : kappa.toNat = 0 := Int.toNat_eq_zero.2 (by omega)
      simp [h0, runLoop, NewBlockAgreement]
  refine ⟨?_, h.1, h.2⟩
  unfold ticksConsumed
  rw [h.1, h.2]
  omega

end BlockAgreement

/-! ### The ticker -/

theorem tickerLoop_returns (kappa : Int) :
    ∀ (m edges : Nat) (c : Int) (sent : List Int), 1 ≤ m → c + m = 7 * kappa → m ≤ edges →
      tickerLoop kappa edges c sent
        = (sent ++ (List.range m).map (fun (i : Nat) => Int.tmod (c + (i : Int)) 6), true) := by
  intro m
  induction m with
  | zero =>
    intro edges c sent h
    omega
  | succ m ih =>
    intro edges c sent _ hc he
    obtain ⟨e, rfl⟩ : ∃ e, edges = e + 1 := ⟨edges - 1, by omega⟩
    by_cases hm : m = 0
    · subst hm
      have h1 : c + 1 = 7 * kappa := by
        push_cast at hc
        omega
      simp [tickerLoop, h1, List.range_succ]
    · have h1 : ¬ c + 1 = 7 * kappa := by
        push_cast at hc
        omega
      have h2 : c + 1 + (m : Int) = 7 * kappa := by
        push_cast at hc
        omega
      have hrec := ih e (c + 1) (sent ++ [Int.tmod c 6]) (by omega) h2 (by omega)
      simp only [tickerLoop, h1, if_false, hrec, List.range_succ_eq_map, List.map_cons,
        List.map_map, Function.comp_def, List.append_assoc, List.singleton_append,
        Nat.cast_zero, add_zero]
      have hshift : ∀ i : Nat, c + 1 + (i : Int) = c + ((i + 1 : Nat) : Int) := by
        intro i
        push_cast
        omega
      simp only [hshift]

theorem tickerLoop_running (kappa : Int) :
    ∀ (edges : Nat) (c : Int) (sent : List Int), c + edges < 7 * kappa →
      (tickerLoop kappa edges c sent).2 = false := by
  intro edges
  induction edges with
  | zero =>
    intro c sent _
    rfl
  | succ e ih =>
    intro c sent h
    have h1 : ¬ c + 1 = 7 * kappa := by
      push_cast at h
      omega
    simp only [tickerLoop, h1, if_false]
    apply ih
    push_cast at h
    omega

/-! ### Claim on the ticker -/

/-- C13.  For every `κ ≥ 1` the ticker stops when its counter reaches `7 κ`: given
at least `7 κ − 1` timer edges it has returned after sending exactly `7 κ − 1`
ticks, the `i`-th of them (counting from 1) being `i mod 6`, and with fewer timer
edges it has not returned. -/
theorem ticker_stops_at_seven_kappa (kappa : Int) (hk : 1 ≤ kappa) :
    (∀ edges : Nat, (7 * kappa - 1).toNat ≤ edges →
      ticker kappa edges
        = ((List.range (7 * kappa - 1).toNat).map (fun (i : Nat) => ((i : Int) + 1) % 6),
            true)) ∧
    (∀ edges : Nat, (7 * kappa - 1).toNat ≤ edges →
      (ticker kappa edges).1.length = (7 * kappa - 1).toNat) ∧
    (∀ edges : Nat, edges < (7 * kappa - 1).toNat → (ticker kappa edges).2 = false) := by
  have hn : ((7 * kappa - 1).toNat : Int) = 7 * kappa - 1 := Int.toNat_of_nonneg (by omega)
  have hmain : ∀ edges : Nat, (7 * kappa - 1).toNat ≤ edges →
      ticker kappa edges
        = ((List.range (7 * kappa - 1).toNat).map (fun (i : Nat) => ((i : Int) + 1) % 6),
            true) := by
    intro edges he
    unfold ticker
    rw [tickerLoop_returns kappa (7 * kappa - 1).toNat edges 1 [] (by omega) (by omega) he]
    simp only [List.nil_append, Prod.mk.injEq, and_true]
    apply List.map_congr_left
    intro i _
    rw [Int.tmod_eq_emod (by omega) (by decide)]
    congr 1
    omega
  refine ⟨hmain, fun edges he => ?_, fun edges he => ?_⟩
  · rw [hmain edges he]
    simp
  · unfold ticker
    apply tickerLoop_running
    omega

/-- Witness for C13: `κ = 1`, six ticks `1, 2, 3, 4, 5, 0`. -/
theorem ticker_stops_at_seven_kappa_witness :
    ticker 1 6 = ([1, 2, 3, 4, 5, 0], true) ∧ (ticker 1 5).2 = false := by
  have h := ticker_stops_at_seven_kappa 1 (by decide)
  exact ⟨by simpa using h.1 6 (by decide), h.2.2 5 (by decide)⟩

/-! ### Message hashes -/

theorem voteMessagesGet_eq_none_iff (m : List (Int × voteMessage)) (k : Int) :
    voteMessagesGet m k = none ↔ k ∉ m.map Prod.fst := by
  induction m with
  | nil => simp [voteMessagesGet]
  | cons p rest ih =>
    obtain ⟨k', v⟩ := p
    by_cases h : k' = k
    · simp [voteMessagesGet, h]
    · have h' : ¬ k = k' := fun e => h e.symm
      simp [voteMessagesGet, h, h', ih]

theorem voteMessagesGet_eq_some_iff (m : List (Int × voteMessage)) (k : Int) (v : voteMessage)
    (hnd : (m.map Prod.fst).Nodup) :
    voteMessagesGet m k = some v ↔ (k, v) ∈ m := by
  induction m with
  | nil => simp [voteMessagesGet]
  | cons p rest ih =>
    obtain ⟨k', v'⟩ := p
    simp only [List.map_cons, List.nodup_cons] at hnd
    by_cases h : k' = k
    · subst h
      have hnot : (k', v) ∉ rest := fun hmem => hnd.1 (List.mem_map.2 ⟨(k', v), hmem, rfl⟩)
      simp only [voteMessagesGet, if_true, Option.some.injEq, List.mem_cons, Prod.mk.injEq,
        true_and, hnot, or_false]
      exact eq_comm
    · have h' : ¬ k = k' := fun e => h e.symm
      simp [voteMessagesGet, h, h', ih hnd.2]

/-- A map read does not depend on the order in which the bindings are listed. -/
theorem voteMessagesGet_perm (m m' : List (Int × voteMessage)) (hp : m.Perm m')
    (hnd : (m.map Prod.fst).Nodup) (k : Int) :
    voteMessagesGet m k = voteMessagesGet m' k := by
  have hnd' : (m'.map Prod.fst).Nodup := (hp.map Prod.fst).nodup_iff.1 hnd
  cases h : voteMessagesGet m k with
  | none =>
    rw [voteMessagesGet_eq_none_iff] at h
    symm
    rw [voteMessagesGet_eq_none_iff]
    intro hk
    exact h ((hp.map Prod.fst).mem_iff.2 hk)
  | some v =>
    rw [voteMessagesGet_eq_some_iff m k v hnd] at h
    symm
    rw [voteMessagesGet_eq_some_iff m' k v hnd']
    exact hp.mem_iff.1 h

theorem sortInts_perm (l l' : List Int) (hp : l.Perm l') : sortInts l = sortInts l' := by
  unfold sortInts
  apply List.eq_of_perm_of_sorted (r := (· ≤ ·))
  · exact ((List.perm_insertionSort _ l).trans hp).trans (List.perm_insertionSort _ l').symm
  · exact List.sorted_insertionSort _ l
  · exact List.sorted_insertionSort _ l'

theorem voteHashes_congr (e : HashEnv) (m m' : List (Int × voteMessage))
    (h : ∀ k, voteMessagesGet m k = voteMessagesGet m' k) (ks : List Int) :
    voteHashes e m ks = voteHashes e m' ks := by
  induction ks with
  | nil => rfl
  | cons k ks ih => simp only [voteHashes, h k, ih]

theorem keys_perm (pm pm' : proposeMessage) (hp : pm.voteMessages.Perm pm'.voteMessages) :
    pm.keys = pm'.keys := by
  unfold proposeMessage.keys
  apply sortInts_perm
  rw [hp.length_eq]
  exact List.Perm.append_left _ (hp.map Prod.fst)

/-! ### Claims on the message hashes -/

/-- C14 (evaluation at a failing input).  For a propose message whose map holds
the vote messages of nodes 0 and 1, the slice of keys is `[0, 0, 0, 1]` and
`HashWithoutSig` hashes the entry of key 0 three times before the entry of key
1, which is not the digest over each entry taken once in key order.  (`Sum256`
is read as the identity to show the bytes hashed.) -/
theorem HashWithoutSig_repeats_key_zero :
    twoVotesPropose.keys = [0, 0, 0, 1] ∧
    twoVotesPropose.HashWithoutSig plainHashEnv
      = some (itoaBytes 0 ++ twoVotesPropose.vote.Hash plainHashEnv
          ++ ((mkVoteMessage 0 100).Hash plainHashEnv ++ ((mkVoteMessage 0 100).Hash plainHashEnv
          ++ ((mkVoteMessage 0 100).Hash plainHashEnv
          ++ ((mkVoteMessage 1 101).Hash plainHashEnv ++ []))))) ∧
    twoVotesPropose.hashSortedOnce plainHashEnv
      = itoaBytes 0 ++ twoVotesPropose.vote.Hash plainHashEnv
          ++ ((mkVoteMessage 0 100).Hash plainHashEnv
          ++ ((mkVoteMessage 1 101).Hash plainHashEnv ++ [])) ∧
    twoVotesPropose.HashWithoutSig plainHashEnv
      ≠ some (twoVotesPropose.hashSortedOnce plainHashEnv) := by
  decide

/-- C15.  The hashes of `vote`, `voteMessage`, `commitMessage` and `proposeMessage`
are determined by the field values; for `proposeMessage` two maps with the same
bindings, listed in any two orders, give the same `HashWithoutSig` and the same
`Hash`. -/
theorem Hash_depends_on_fields_only (e : HashEnv) :
    (∀ v v' : vote, v.round = v'.round → v.blockShare = v'.blockShare →
      v.commits = v'.commits → v.Hash e = v'.Hash e) ∧
    (∀ vm vm' : voteMessage, vm.sender = vm'.sender → vm.vote = vm'.vote →
      vm.sig = vm'.sig → vm.Hash e = vm'.Hash e) ∧
    (∀ c c' : commitMessage, c.sender = c'.sender → c.round = c'.round →
      c.blockShare = c'.blockShare → c.sig = c'.sig → c.Hash e = c'.Hash e) ∧
    (∀ pm pm' : proposeMessage, pm.sender = pm'.sender → pm.vote = pm'.vote →
      pm.sig = pm'.sig → pm.voteMessages.Perm pm'.voteMessages →
      (pm.voteMessages.map Prod.fst).Nodup →
      pm.HashWithoutSig e = pm'.HashWithoutSig e ∧ pm.Hash e = pm'.Hash e) := by
  refine ⟨?_, ?_, ?_, ?_⟩
  · intro v v' h1 h2 h3
    cases v
    cases v'
    simp only at h1 h2 h3
    subst h1 h2 h3
    rfl
  · intro vm vm' h1 h2 h3
    cases vm
    cases vm'
    simp only at h1 h2 h3
    subst h1 h2 h3
    rfl
  · intro c c' h1 h2 h3 h4
    cases c
    cases c'
    simp only at h1 h2 h3 h4
    subst h1 h2 h3 h4
    rfl
  · intro pm pm' h1 h2 h3 hp hnd
    have hw : pm.HashWithoutSig e = pm'.HashWithoutSig e := by
      unfold proposeMessage.HashWithoutSig
      rw [keys_perm pm pm' hp,
        voteHashes_congr e pm.voteMessages pm'.voteMessages
          (voteMessagesGet_perm _ _ hp hnd) pm'.keys, h1, h2]
    refine ⟨hw, ?_⟩
    unfold proposeMessage.Hash
    rw [hw, h3]

/-- Witness for C15: the propose message of nodes 0 and 1 with its map listed in
the other order. -/
theorem Hash_depends_on_fields_only_witness :
    twoVotesPropose.Hash plainHashEnv
      = ({ twoVotesPropose with
            voteMessages := [(1, mkVoteMessage 1 101), (0, mkVoteMessage 0 100)] }
          : proposeMessage).Hash plainHashEnv :=
  ((Hash_depends_on_fields_only plainHashEnv).2.2.2 twoVotesPropose
    { twoVotesPropose with voteMessages := [(1, mkVoteMessage 1 101), (0, mkVoteMessage 0 100)] }
    rfl rfl rfl (List.Perm.swap _ _ _) (by decide)).2

/-- C16.  For `voteMessage`, `proposeMessage` and `commitMessage`, replacing the
field `sig` of a message leaves `HashWithoutSig` unchanged; `HashWithoutSig` is
the digest over `(sender, vote)`, over `(sender, vote, voteMessages)` and over
`(blockShare, sender, round)` respectively, and `Hash` is the digest of
`HashWithoutSig` followed by the digest of the bytes `sig.Xi`. -/
theorem HashWithoutSig_ignores_sig (e : HashEnv) :
    (∀ (vm : voteMessage) (sig' : SigShare),
      ({ vm with sig := sig' } : voteMessage).HashWithoutSig e = vm.HashWithoutSig e) ∧
    (∀ vm : voteMessage,
      vm.HashWithoutSig e = e.sum256 (e.sum256 (itoaBytes vm.sender) ++ vm.vote.Hash e) ∧
      vm.Hash e = e.sum256 (vm.HashWithoutSig e ++ e.sum256 vm.sig.Xi)) ∧
    (∀ (pm : proposeMessage) (sig' : SigShare),
      ({ pm with sig := sig' } : proposeMessage).HashWithoutSig e = pm.HashWithoutSig e) ∧
    (∀ pm : proposeMessage,
      pm.HashWithoutSig e
        = (voteHashes e pm.voteMessages pm.keys).map
            (fun vh => e.sum256 (e.sum256 (itoaBytes pm.sender) ++ pm.vote.Hash e ++ vh)) ∧
      pm.Hash e
        = (pm.HashWithoutSig e).map (fun h => e.sum256 (h ++ e.sum256 pm.sig.Xi))) ∧
    (∀ (c : commitMessage) (sig' : SigShare),
      ({ c with sig := sig' } : commitMessage).HashWithoutSig e = c.HashWithoutSig e) ∧
    (∀ c : commitMessage,
      c.HashWithoutSig e
        = e.sum256 (e.blockShareHash c.blockShare ++ e.sum256 (itoaBytes c.sender)
            ++ e.sum256 (itoaBytes c.round)) ∧
      c.Hash e = e.sum256 (c.HashWithoutSig e ++ e.sum256 c.sig.Xi)) := by
  refine ⟨fun _ _ => rfl, fun _ => ⟨rfl, rfl⟩, fun _ _ => rfl, fun pm => ⟨?_, ?_⟩,
    fun _ _ => rfl, fun _ => ⟨rfl, rfl⟩⟩
  · unfold proposeMessage.HashWithoutSig
    cases voteHashes e pm.voteMessages pm.keys <;> rfl
  · unfold proposeMessage.Hash
    cases pm.HashWithoutSig e <;> rfl

/-! ### The network handler -/

theorem lazyCreate_isSome (n : Nat) (t : ChanTable) (k : Int × Int) :
    ((lazyCreate n t k).chans k).isSome = true := by
  unfold lazyCreate
  cases h : t.chans k with
  | none => simp [setKey]
  | some l => simp [h]

/-- An entry that is present is never changed by a lazy creation, for any key. -/
theorem lazyCreate_keeps (n : Nat) (t : ChanTable) (k k' : Int × Int)
    (h : (t.chans k).isSome = true) : (lazyCreate n t k').chans k = t.chans k := by
  unfold lazyCreate
  cases h' : t.chans k' with
  | some l => rfl
  | none =>
    have hne : ¬ k = k' := by
      intro e
      rw [e, h'] at h
      simp at h
    simp [setKey, hne]

theorem foldl_lazyCreate_keeps (n : Nat) (k : Int × Int) :
    ∀ (ks : List (Int × Int)) (t : ChanTable), (t.chans k).isSome = true →
      (ks.foldl (lazyCreate n) t).chans k = t.chans k := by
  intro ks
  induction ks with
  | nil =>
    intro t _
    rfl
  | cons k' ks ih =>
    intro t h
    have h1 := lazyCreate_keeps n t k k' h
    rw [List.foldl_cons, ih (lazyCreate n t k') (by rw [h1]; exact h), h1]

theorem lazyCreate_of_some (n : Nat) (t : ChanTable) (k : Int × Int)
    (h : (t.chans k).isSome = true) : lazyCreate n t k = t := by
  unfold lazyCreate
  cases h' : t.chans k with
  | some l => rfl
  | none =>
    rw [h'] at h
    simp at h

/-! ### Claims on the network handler -/

/-- C17.  For every message, origin, `UROUND`, round, instance and every `n`:
with receiver `-1` the handler's `multicast` starts one send per node, to the
nodes `0, …, n − 1`, each exactly once; with a receiver `r ≥ 0` it starts a single
send, to `r`; every send carries the handler message with the given `UROUND`,
round, instance, origin and payload.  The `multicast` of `NewBlockAgreement`
does the same with origin `BLA` and instance 0: to all nodes when called
without receiver, to `r` when called with the receiver `r ≥ 0`. -/
theorem multicast_sends (n : Int) (msg : Message) (origin : Origin) (U round inst : Int) :
    multicast n msg origin [U, round, inst, -1]
      = some ((List.range n.toNat).map
          (fun (i : Nat) => ((⟨U, round, inst, origin, msg⟩ : HandlerMessage), (i : Int)))) ∧
    (((List.range n.toNat).map
        (fun (i : Nat) => ((⟨U, round, inst, origin, msg⟩ : HandlerMessage), (i : Int)))).map
        Prod.snd).Nodup ∧
    (∀ i : Int, i ∈ ((List.range n.toNat).map
        (fun (i : Nat) => ((⟨U, round, inst, origin, msg⟩ : HandlerMessage), (i : Int)))).map
        Prod.snd ↔ 0 ≤ i ∧ i < n) ∧
    (∀ r : Int, 0 ≤ r →
      multicast n msg origin [U, round, inst, r]
        = some [((⟨U, round, inst, origin, msg⟩ : HandlerMessage), r)]) ∧
    NewBlockAgreement.multicast n U msg round []
      = some ((List.range n.toNat).map
          (fun (i : Nat) => ((⟨U, round, 0, Origin.BLA, msg⟩ : HandlerMessage), (i : Int)))) ∧
    (∀ r : Int, 0 ≤ r →
      NewBlockAgreement.multicast n U msg round [r]
        = some [((⟨U, round, 0, Origin.BLA, msg⟩ : HandlerMessage), r)]) := by
  have hall : ∀ (o : Origin) (i : Int), multicast n msg o [U, round, i, -1]
      = some ((List.range n.toNat).map
          (fun (j : Nat) => ((⟨U, round, i, o, msg⟩ : HandlerMessage), (j : Int)))) := by
    intro o i
    simp [multicast, fillParams]
  have hone : ∀ (o : Origin) (i r : Int), 0 ≤ r → multicast n msg o [U, round, i, r]
      = some [((⟨U, round, i, o, msg⟩ : HandlerMessage), r)] := by
    intro o i r hr
    have hne : ¬ r = -1 := by omega
    simp [multicast, fillParams, hne]
  refine ⟨hall origin inst, ?_, ?_, hone origin inst, hall Origin.BLA 0, ?_⟩
  · simp only [List.map_map, Function.comp_def]
    apply List.Nodup.map
    · intro a b hab
      exact Int.ofNat.inj hab
    · exact List.nodup_range _
  · intro i
    simp only [List.map_map, Function.comp_def, List.mem_map, List.mem_range]
    constructor
    · rintro ⟨j, hj, rfl⟩
      omega
    · rintro ⟨h0, hn⟩
      exact ⟨i.toNat, by omega, by omega⟩
  · intro r hr
    exact hone Origin.BLA 0 r hr

/-- Witness for C17: a handler for 4 nodes, unicast to node 2. -/
theorem multicast_sends_witness :
    multicast 4 someMessage Origin.ABA [0, 1, 2, 2]
      = some [((⟨0, 1, 2, Origin.ABA, someMessage⟩ : HandlerMessage), 2)] :=
  (multicast_sends 4 someMessage Origin.ABA 0 1 2).2.2.2.1 2 (by decide)

/-- C18.  The lazy creation of the cases ABA and COIN of `receive`: for a
`(UROUND, round)` whose entry is absent it stores `n` channels, all new and
pairwise distinct; for one whose entry is present it changes nothing; an entry
that is present is not changed by a lazy creation for any key; hence a
`receive` for `(UROUND, round, instance)` repeated after any number of other
`receive` calls reads from the same channel as the first, which for
`0 ≤ instance < n` and an entry created by `receive` is a channel. -/
theorem lazyCreate_idempotent (n : Nat) (t : ChanTable) (U round : Int) :
    (t.chans (U, round) = none →
      (lazyCreate n t (U, round)).chans (U, round)
          = some ((List.range n).map (fun i => t.made + i)) ∧
      ((List.range n).map (fun i => t.made + i)).length = n ∧
      ((List.range n).map (fun i => t.made + i)).Nodup ∧
      (∀ c ∈ (List.range n).map (fun i => t.made + i), t.made ≤ c) ∧
      (lazyCreate n t (U, round)).made = t.made + n) ∧
    ((t.chans (U, round)).isSome = true → lazyCreate n t (U, round) = t) ∧
    (∀ k' : Int × Int, (t.chans (U, round)).isSome = true →
      (lazyCreate n t k').chans (U, round) = t.chans (U, round)) ∧
    (∀ (inst : Int) (others : List (Int × Int)),
      (receiveChannel n (others.foldl (lazyCreate n) (receiveChannel n t U round inst).1)
          U round inst).2
        = (receiveChannel n t U round inst).2) ∧
    (∀ inst : Int, t.chans (U, round) = none → 0 ≤ inst → inst < n →
      (receiveChannel n t U round inst).2 = some (t.made + inst.toNat)) := by
  refine ⟨fun h => ⟨?_, by simp, ?_, ?_, ?_⟩, lazyCreate_of_some n t (U, round),
    fun k' h => lazyCreate_keeps n t (U, round) k' h, ?_, ?_⟩
  · simp [lazyCreate, h, setKey]
  · apply List.Nodup.map
    · intro a b hab
      exact Nat.add_left_cancel hab
    · exact List.nodup_range _
  · intro c hc
    simp only [List.mem_map, List.mem_range] at hc
    obtain ⟨i, _, rfl⟩ := hc
    exact Nat.le_add_right _ _
  · simp [lazyCreate, h]
  · intro inst others
    have h1 : ((receiveChannel n t U round inst).1.chans (U, round)).isSome = true :=
      lazyCreate_isSome n t (U, round)
    have h2 := foldl_lazyCreate_keeps n (U, round) others (receiveChannel n t U round inst).1 h1
    have h3 : ((others.foldl (lazyCreate n) (receiveChannel n t U round inst).1).chans
        (U, round)).isSome = true := by
      rw [h2]
      exact h1
    have h2' : (others.foldl (lazyCreate n) (lazyCreate n t (U, round))).chans (U, round)
        = (lazyCreate n t (U, round)).chans (U, round) := h2
    have h3' : ((others.foldl (lazyCreate n) (lazyCreate n t (U, round))).chans
        (U, round)).isSome = true := h3
    simp only [receiveChannel]
    rw [lazyCreate_of_some n _ (U, round) h3', h2']
  · intro inst h h0 hn
    have hlt : inst.toNat < n := by omega
    simp [receiveChannel, lazyCreate, h, setKey, h0, List.getElem?_map,
      List.getElem?_range hlt]

/-- Witness for C18: on an empty table, a handler for 4 nodes reads instance 2 of
`(0, 1)` from the channel made third, also after a `receive` for `(0, 5)`. -/
theorem lazyCreate_idempotent_witness :
    (receiveChannel 4 ChanTable.empty 0 1 2).2 = some (0 + (2 : Int).toNat) ∧
    (receiveChannel 4 ([(0, 5)].foldl (lazyCreate 4) (receiveChannel 4 ChanTable.empty 0 1 2).1)
        0 1 2).2 = (receiveChannel 4 ChanTable.empty 0 1 2).2 :=
  ⟨(lazyCreate_idempotent 4 ChanTable.empty 0 1).2.2.2.2 2 rfl (by decide) (by decide),
   (lazyCreate_idempotent 4 ChanTable.empty 0 1).2.2.2.1 2 [(0, 5)]⟩

/-! ### The coin answer on the network -/

theorem intToByte_byteToInt (val : Nat) (h : val < 256) : intToByte (byteToInt val) = val := by
  unfold intToByte byteToInt
  omega

/-- C22.  For every byte `val` and every coin request `req`, the handler message
built by the network coin's `answer` is for the queue `coinCall` waits on for
`req` (origin COIN with the UROUND, round and instance of `req`), carries `val`
in the field `Sender` of its payload, and `coinCall` returns `val` for it. -/
theorem coin_answer_round_trip (req : CoinRequest) (val : Nat) (hval : val < 256) :
    (networkAnswer req val).UROUND = req.UROUND ∧
    (networkAnswer req val).Round = req.Round ∧
    (networkAnswer req val).Instance = req.Instance ∧
    (networkAnswer req val).Origin = Origin.COIN ∧
    (networkAnswer req val).queue = coinCallQueue req ∧
    (networkAnswer req val).Payload.Sender = (val : Int) ∧
    coinCallResult (networkAnswer req val).Payload = val :=
  ⟨rfl, rfl, rfl, rfl, rfl, rfl, intToByte_byteToInt val hval⟩

/-- Witness for C22: the coin bit 1 answered to the request of node 3. -/
theorem coin_answer_round_trip_witness :
    (1 : Nat) < 256 ∧ coinCallResult (networkAnswer (mkReq 3 0 13) 1).Payload = 1 :=
  ⟨by decide, (coin_answer_round_trip (mkReq 3 0 13) 1 (by decide)).2.2.2.2.2.2⟩

/-! ### When the hash of a propose message is defined -/

theorem voteHashes_eq_none_iff (e : HashEnv) (m : List (Int × voteMessage)) (ks : List Int) :
    voteHashes e m ks = none ↔ ∃ k ∈ ks, voteMessagesGet m k = none := by
  induction ks with
  | nil => simp [voteHashes]
  | cons k ks ih =>
    cases hk : voteMessagesGet m k with
    | none => simp [voteHashes, hk]
    | some vm =>
      cases hrest : voteHashes e m ks with
      | none =>
        obtain ⟨k', hk', hnone⟩ := ih.1 hrest
        have hval : voteHashes e m (k :: ks) = none := by simp [voteHashes, hk, hrest]
        exact ⟨fun _ => ⟨k', List.mem_cons_of_mem _ hk', hnone⟩, fun _ => hval⟩
      | some vh =>
        have hval : voteHashes e m (k :: ks) = some (vm.Hash e ++ vh) := by
          simp [voteHashes, hk, hrest]
        constructor
        · intro h
          rw [hval] at h
          exact Option.noConfusion h
        · rintro ⟨k', hk', hnone⟩
          rcases List.mem_cons.1 hk' with h | h
          · rw [h, hk] at hnone
            exact Option.noConfusion hnone
          · have : voteHashes e m ks = none := ih.2 ⟨k', h, hnone⟩
            rw [hrest] at this
            exact Option.noConfusion this

theorem mem_keys_iff (pm : proposeMessage) (k : Int) :
    k ∈ pm.keys ↔ (k = 0 ∧ pm.voteMessages ≠ []) ∨ k ∈ pm.voteMessages.map Prod.fst := by
  unfold proposeMessage.keys sortInts
  rw [(List.perm_insertionSort _ _).mem_iff, List.mem_append, List.mem_replicate]
  constructor
  · rintro (⟨hlen, hk⟩ | h)
    · exact Or.inl ⟨hk, fun e => hlen (by simp [e])⟩
    · exact Or.inr h
  · rintro (⟨hk, hne⟩ | h)
    · exact Or.inl ⟨fun e => hne (List.length_eq_zero.1 e), hk⟩
    · exact Or.inr h

/-- The call `HashWithoutSig` panics exactly for the non-empty maps that have no
entry for key 0. -/
theorem HashWithoutSig_eq_none_iff (e : HashEnv) (pm : proposeMessage) :
    pm.HashWithoutSig e = none ↔
      pm.voteMessages ≠ [] ∧ (0 : Int) ∉ pm.voteMessages.map Prod.fst := by
  have hnone : pm.HashWithoutSig e = none ↔ voteHashes e pm.voteMessages pm.keys = none := by
    unfold proposeMessage.HashWithoutSig
    cases voteHashes e pm.voteMessages pm.keys <;> simp
  rw [hnone, voteHashes_eq_none_iff]
  constructor
  · rintro ⟨k, hk, hget⟩
    rw [voteMessagesGet_eq_none_iff] at hget
    rcases (mem_keys_iff pm k).1 hk with ⟨h0, hne⟩ | h
    · subst h0
      exact ⟨hne, hget⟩
    · exact absurd h hget
  · rintro ⟨hne, h0⟩
    exact ⟨0, (mem_keys_iff pm 0).2 (Or.inl ⟨rfl, hne⟩),
      (voteMessagesGet_eq_none_iff _ _).2 h0⟩

/-- C23 (evaluation at a failing input).  For a propose message whose map holds
the vote messages of nodes 1 and 2 and none of node 0, with non-nil vote, sig
and entries, the sorted key slice is `[0, 0, 1, 2]`: `HashWithoutSig` reads the
key 0, which is absent from the map, calls `Hash` on the nil entry and panics;
neither `HashWithoutSig` nor `Hash` returns a digest. -/
theorem HashWithoutSig_panics_without_key_zero :
    noZeroPropose.keys = [0, 0, 1, 2] ∧
    voteMessagesGet noZeroPropose.voteMessages 0 = none ∧
    noZeroPropose.HashWithoutSig plainHashEnv = none ∧
    noZeroPropose.Hash plainHashEnv = none := by
  decide

end Upgrade
